import Mathlib

/-!
Transaction core of `src/coin/transactions.go`

A shallow embedding of the Go transaction type, its byte encoding, its
well-formedness check `Verify`, the builder operations and the fee-priority
selector, followed by the properties proved about them.

Conventions of the embedding:
* Go slices are Lean lists; fixed-size byte arrays (`SHA256`, `Sig`,
  `Address`, `SecKey`) are lists of bytes of a fixed length.
* `uint64` values are `Fin (2 ^ 64)`; arithmetic that can wrap is written
  with an explicit `% 2 ^ 64`.
* Go `int` values that are compared with caller-supplied ones are `Int`.
* `log.Panic` and run-time panics are the `panic` result of `Result`.
* The cryptographic primitives (`SumSHA256`, `SumDoubleSHA256`, `SignHash`,
  `VerifySignedHash`, `UxBody.Hash`) are declared in other files of the
  package; they are the fields of the parameter `Cipher`, so every theorem
  holds for any choice of them.
* The package `encoder` and the standard library's `sort` and `bytes` are
  modelled after their documented behaviour.
-/

namespace Coin

/-! ## Bytes, fixed arrays and machine integers -/

/-- A Go `byte`. -/
abbrev Byte := Fin 256

/-- A Go array `[n]byte`. -/
structure FixedBytes (n : Nat) where
  bytes : List Byte
  size_eq : bytes.length = n
deriving DecidableEq

/-- The array `[n]byte` whose bytes are all `b`. -/
def FixedBytes.fill (n : Nat) (b : Byte) : FixedBytes n :=
  ⟨List.replicate n b, List.length_replicate n b⟩

/-- Type `SHA256` is `[32]byte`. -/
abbrev SHA256 := FixedBytes 32

/-- Type `Sig` is `[64+1]byte`. -/
abbrev Sig := FixedBytes 65

/-- Type `SecKey` is `[32]byte`. -/
abbrev SecKey := FixedBytes 32

/-- The type `Address` is declared in another file of the package; the
encoding treats it as a fixed-width blob of `N` bytes, `N` being a
parameter. -/
abbrev Address (N : Nat) := FixedBytes N

/-- A Go `uint64`. -/
abbrev Uint64 := Fin (2 ^ 64)

/-- The constant `math.MaxUint16`. -/
def MaxUint16 : Nat := 65535

/-! ## The data model -/

/-- The struct `TransactionOutput`. -/
structure TransactionOutput (N : Nat) where
  Address : Address N
  Coins : Uint64
  Hours : Uint64
deriving DecidableEq

/-- The struct `TransactionHeader`. -/
structure TransactionHeader where
  Hash : SHA256
  Sigs : List Sig
deriving DecidableEq

/-- The struct `Transaction`. -/
structure Transaction (N : Nat) where
  Head : TransactionHeader
  In : List SHA256
  Out : List (TransactionOutput N)
deriving DecidableEq

/-- The struct `UxBody`, of which `Verify` fills every field. -/
structure UxBody (N : Nat) where
  SrcTransaction : SHA256
  Address : Address N
  Coins : Uint64
  Hours : Uint64
deriving DecidableEq

/-- A Go `error` value as this file meets it: one made by `errors.New` with
a message, or one handed back by `VerifySignedHash`. -/
inductive Error where
  | New (msg : String)
  | Signature (msg : String)
deriving DecidableEq

/-- The outcome of a Go call that may panic. -/
inductive Result (α : Type) where
  | ok (a : α)
  | panic (msg : String)
deriving DecidableEq

/-- Sequencing of calls that may panic. -/
def Result.bind {α β : Type} (r : Result α) (f : α → Result β) : Result β :=
  match r with
  | .ok a => f a
  | .panic m => .panic m

/-- The primitives of the cipher package that `transactions.go` calls. -/
structure Cipher (N : Nat) where
  SumSHA256 : List Byte → SHA256
  SumDoubleSHA256 : List Byte → SHA256
  SignHash : SHA256 → SecKey → Sig
  VerifySignedHash : Sig → SHA256 → Option String
  UxBodyHash : UxBody N → SHA256

/-! ## The encoder -/

/-- Modelled from the spec: the package `encoder` is not among the sources;
integers are encoded fixed-width little-endian. `leBytes k v` is the `k`-byte
little-endian encoding of `v` (of `v % 256 ^ k`, as a Go conversion to the
`k`-byte type truncates). -/
def leBytes : Nat → Nat → List Byte
  | 0, _ => []
  | k + 1, v => ⟨v % 256, Nat.mod_lt _ (by decide)⟩ :: leBytes k (v / 256)

/-- The number a little-endian byte string stands for. -/
def leValue : List Byte → Nat
  | [] => 0
  | b :: bs => b.val + 256 * leValue bs

/-- Modelled from the spec: the package `encoder` is not among the sources;
a variable sequence is a 4-byte little-endian length prefix followed by the
element encodings concatenated. -/
def encodeSeq {α : Type} (enc : α → List Byte) (xs : List α) : List Byte :=
  leBytes 4 xs.length ++ (xs.map enc).flatten

/-- Modelled from the spec: a fixed array is its raw bytes, no prefix. -/
def encodeFixed {n : Nat} (x : FixedBytes n) : List Byte := x.bytes

/-- Modelled from the spec: the record `TxOut := Address(N) u64_le(Coins)
u64_le(Hours)`, fields in declaration order, no padding. -/
def encodeTxOut {N : Nat} (o : TransactionOutput N) : List Byte :=
  encodeFixed o.Address ++ leBytes 8 o.Coins.val ++ leBytes 8 o.Hours.val

/-- The call `encoder.Serialize(self.In)`. -/
def encodeInputs (xs : List SHA256) : List Byte := encodeSeq encodeFixed xs

/-- The call `encoder.Serialize(self.Out)`. -/
def encodeOutputs {N : Nat} (xs : List (TransactionOutput N)) : List Byte :=
  encodeSeq encodeTxOut xs

/-- Modelled from the spec: `TransactionHeader := InnerHash(32) SigsArray`. -/
def encodeHeader (h : TransactionHeader) : List Byte :=
  encodeFixed h.Hash ++ encodeSeq encodeFixed h.Sigs

/-- Modelled from the spec: `Transaction := TransactionHeader Inputs
Outputs`. -/
def encodeTransaction {N : Nat} (t : Transaction N) : List Byte :=
  encodeHeader t.Head ++ encodeInputs t.In ++ encodeOutputs t.Out

/-! ## The decoder -/

/-- Modelled from the spec: decoding a fixed array of `n` bytes fails when
the buffer is too short, and otherwise returns the array and the rest. -/
def decodeFixed (n : Nat) (b : List Byte) : Option (FixedBytes n × List Byte) :=
  if h : n ≤ b.length then
    some (⟨b.take n, by simp [List.length_take, h]⟩, b.drop n)
  else none

/-- Modelled from the spec: decoding a `k`-byte little-endian integer. -/
def decodeLE (k : Nat) (b : List Byte) : Option (Nat × List Byte) :=
  if k ≤ b.length then some (leValue (b.take k), b.drop k) else none

/-- Modelled from the spec: decoding a `uint64`. -/
def decodeUint64 (b : List Byte) : Option (Uint64 × List Byte) :=
  match decodeLE 8 b with
  | some (v, rest) => some (⟨v % 2 ^ 64, Nat.mod_lt _ (by decide)⟩, rest)
  | none => none

/-- Decoding `n` consecutive elements. -/
def decodeElems {α : Type} (dec : List Byte → Option (α × List Byte)) :
    Nat → List Byte → Option (List α × List Byte)
  | 0, b => some ([], b)
  | n + 1, b =>
    match dec b with
    | none => none
    | some (x, rest) =>
      match decodeElems dec n rest with
      | none => none
      | some (xs, rest') => some (x :: xs, rest')

/-- Modelled from the spec: decoding a variable sequence reads the 4-byte
length prefix, fails when the prefix exceeds the remaining bytes, and then
decodes that many elements. -/
def decodeSeq {α : Type} (dec : List Byte → Option (α × List Byte))
    (b : List Byte) : Option (List α × List Byte) :=
  match decodeLE 4 b with
  | none => none
  | some (n, rest) => if n ≤ rest.length then decodeElems dec n rest else none

/-- Modelled from the spec: decoding a `TxOut` record. -/
def decodeTxOut (N : Nat) (b : List Byte) :
    Option (TransactionOutput N × List Byte) :=
  match decodeFixed N b with
  | none => none
  | some (a, r1) =>
    match decodeUint64 r1 with
    | none => none
    | some (c, r2) =>
      match decodeUint64 r2 with
      | none => none
      | some (h, r3) => some (⟨a, c, h⟩, r3)

/-- Modelled from the spec: the call `encoder.DeserializeRaw(b, &t)` for a
`Transaction`; `none` is a returned error. It fails when the buffer is too
short, when a length prefix exceeds the remaining bytes, and when bytes remain
after the record. -/
def DeserializeRaw (N : Nat) (b : List Byte) : Option (Transaction N) :=
  match decodeFixed 32 b with
  | none => none
  | some (hash, r1) =>
    match decodeSeq (decodeFixed 65) r1 with
    | none => none
    | some (sigs, r2) =>
      match decodeSeq (decodeFixed 32) r2 with
      | none => none
      | some (ins, r3) =>
        match decodeSeq (decodeTxOut N) r3 with
        | none => none
        | some (outs, r4) =>
          if r4 = [] then some ⟨⟨hash, sigs⟩, ins, outs⟩ else none

variable {N : Nat}

/-! ## Methods of `Transaction` -/

/-- The method `Transaction.Serialize`. -/
def Transaction.Serialize (self : Transaction N) : List Byte :=
  encodeTransaction self

/-- The function `TransactionDeserialize`. -/
def TransactionDeserialize (N : Nat) (b : List Byte) : Result (Transaction N) :=
  match DeserializeRaw N b with
  | some t => .ok t
  | none => .panic "Failed to deserialize transaction"

/-- The method `Transaction.Size`. -/
def Transaction.Size (self : Transaction N) : Nat :=
  self.Serialize.length

/-- The method `Transaction.Hash`. -/
def Transaction.Hash (c : Cipher N) (self : Transaction N) : SHA256 :=
  c.SumDoubleSHA256 self.Serialize

/-- The method `Transaction.SizeHash`. -/
def Transaction.SizeHash (c : Cipher N) (self : Transaction N) : Nat × SHA256 :=
  let b := self.Serialize
  (b.length, c.SumDoubleSHA256 b)

/-- The method `Transaction.hashInner`. -/
def Transaction.hashInner (c : Cipher N) (self : Transaction N) : SHA256 :=
  let b1 := encodeInputs self.In
  let b2 := encodeOutputs self.Out
  let b3 := b1 ++ b2
  c.SumSHA256 b3

/-- The method `Transaction.UpdateHeader`. -/
def Transaction.UpdateHeader (c : Cipher N) (self : Transaction N) : Transaction N :=
  { self with Head := { self.Head with Hash := self.hashInner c } }

/-- A Go `map[SHA256]byte` as the list of its keys; `mapSet m k` is the
assignment `m[k] = byte(1)`. -/
def mapSet (m : List SHA256) (k : SHA256) : List SHA256 :=
  if k ∈ m then m else k :: m

/-- The map `uxOuts` that `Verify` fills from the inputs. -/
def uxOutsOf (ins : List SHA256) : List SHA256 :=
  ins.foldl mapSet []

/-- The `UxBody` that `Verify` derives from one output. -/
def uxBodyOf (src : SHA256) (txo : TransactionOutput N) : UxBody N :=
  { SrcTransaction := src, Address := txo.Address, Coins := txo.Coins, Hours := txo.Hours }

/-- The map `outputs` that `Verify` fills from the outputs. -/
def outputsOf (c : Cipher N) (self : Transaction N) : List SHA256 :=
  self.Out.foldl (fun m txo => mapSet m (c.UxBodyHash (uxBodyOf (self.Hash c) txo))) []

/-- The signature loop of `Verify`: the first error of `VerifySignedHash`. -/
def verifySigs (c : Cipher N) (hash : SHA256) : List Sig → Option Error
  | [] => none
  | sig :: rest =>
    match c.VerifySignedHash sig hash with
    | some err => some (.Signature err)
    | none => verifySigs c hash rest

/-- The coin loop of `Verify`. -/
def verifyCoins : List (TransactionOutput N) → Option Error
  | [] => none
  | txo :: rest =>
    if txo.Coins.val = 0 then some (.New "Zero coin output")
    else if txo.Coins.val % 1000000 ≠ 0 then
      some (.New "Transaction outputs must be multiple of 1e6 base units")
    else verifyCoins rest

/-- The method `Transaction.Verify`; `none` is the result `nil`. -/
def Transaction.Verify (c : Cipher N) (self : Transaction N) (maxSize : Int) :
    Option Error :=
  let h := self.hashInner c
  if h ≠ self.Head.Hash then some (.New "Invalid header hash")
  else if self.In.length = 0 then some (.New "No inputs")
  else if self.Out.length = 0 then some (.New "No outputs")
  else if self.Head.Sigs.length ≠ self.In.length then
    some (.New "Invalid number of signatures")
  else if self.Head.Sigs.length ≥ MaxUint16 then
    some (.New "Too many signatures and inputs")
  else if (self.Size : Int) > maxSize then some (.New "Transaction too large")
  else if (uxOutsOf self.In).length ≠ self.In.length then
    some (.New "Duplicate spend")
  else if (outputsOf c self).length ≠ self.Out.length then
    some (.New "Duplicate output in transaction")
  else
    match verifySigs c self.Head.Hash self.Head.Sigs with
    | some err => some err
    | none => verifyCoins self.Out

/-! ## The builder -/

/-- The method `Transaction.PushInput`: the transaction after the call and
the returned `uint16` index. -/
def Transaction.PushInput (self : Transaction N) (uxOut : SHA256) :
    Result (Transaction N × Nat) :=
  if self.In.length ≥ MaxUint16 then .panic "Max transaction inputs reached"
  else
    let self1 : Transaction N := { self with In := self.In ++ [uxOut] }
    .ok (self1, (self1.In.length - 1) % 2 ^ 16)

/-- The method `Transaction.PushOutput`. -/
def Transaction.PushOutput (self : Transaction N) (dst : Address N) (coins hours : Uint64) :
    Transaction N :=
  let txo : TransactionOutput N := { Address := dst, Coins := coins, Hours := hours }
  { self with Out := self.Out ++ [txo] }

/-- The zero value of `Sig`, with which `make([]Sig, n)` fills a slice. -/
def zeroSig : Sig := FixedBytes.fill 65 0

/-- The method `Transaction.signInput`; `idx` is a `uint16`, and the
conversion `uint16(txInLen)` is the remainder modulo `2 ^ 16`. -/
def Transaction.signInput (c : Cipher N) (self : Transaction N) (idx : Nat) (sec : SecKey)
    (h : SHA256) : Result (Transaction N) :=
  let sig := c.SignHash h sec
  let txInLen := self.In.length
  if txInLen > MaxUint16 then .panic "In too large"
  else if idx ≥ txInLen % 2 ^ 16 then .panic "Invalid In idx"
  else
    let sigs :=
      if idx ≥ self.Head.Sigs.length then
        let extendBy := idx - self.Head.Sigs.length + 1
        self.Head.Sigs ++ List.replicate extendBy zeroSig
      else self.Head.Sigs
    .ok { self with Head := { self.Head with Sigs := sigs.set idx sig } }

/-- The loop `for i, k := range keys` of `SignInputs`, from index `i` on; the
argument of `signInput` is `uint16(i)`. -/
def signInputsLoop (c : Cipher N) (h : SHA256) :
    List SecKey → Nat → Transaction N → Result (Transaction N)
  | [], _, self => .ok self
  | k :: rest, i, self =>
    (self.signInput c (i % 2 ^ 16) k h).bind (signInputsLoop c h rest (i + 1))

/-- The method `Transaction.SignInputs`. -/
def Transaction.SignInputs (c : Cipher N) (self : Transaction N) (keys : List SecKey) :
    Result (Transaction N) :=
  if self.Head.Sigs.length ≠ 0 then .panic "Transaction has been signed"
  else if keys.length ≠ self.In.length then .panic "Invalid number of keys"
  else
    let self1 : Transaction N :=
      { self with Head := { self.Head with Sigs := List.replicate self.In.length zeroSig } }
    let h := self1.hashInner c
    signInputsLoop c h keys 0 self1

/-! ## The selector -/

/-- The slice type `Transactions`. -/
abbrev Transactions (N : Nat) := List (Transaction N)

/-- The struct `SortableTransactions`: three parallel slices. -/
structure SortableTransactions (N : Nat) where
  Txns : Transactions N
  Fees : List Uint64
  Hashes : List SHA256
deriving DecidableEq

/-- The type `FeeCalculator`, a `func(*Transaction) (uint64, error)`. -/
abbrev FeeCalculator (N : Nat) := Transaction N → Except String Uint64

/-- The standard library's `bytes.Compare`: the lexicographic comparison of
two byte strings, with result -1, 0 or 1. -/
def bytesCompare : List Byte → List Byte → Int
  | [], [] => 0
  | [], _ :: _ => -1
  | _ :: _, [] => 1
  | a :: as, b :: bs =>
    if a < b then -1 else if b < a then 1 else bytesCompare as bs

/-- The expression `(fee * 1024) / uint64(size)` in `uint64` arithmetic: the
product wraps around at `2 ^ 64`. The divisor is taken to be nonzero. -/
def feePriority (fee : Uint64) (size : Nat) : Uint64 :=
  ⟨fee.val * 1024 % 2 ^ 64 / size,
    lt_of_le_of_lt (Nat.div_le_self _ _) (Nat.mod_lt _ (by decide))⟩

/-- The loop of `newSortableTransactions` over the remaining transactions;
`acc` holds the entries `[0, j)` written so far. A zero `size` is the run-time
panic of the integer division. -/
def newSortableLoop (c : Cipher N) (feeCalc : FeeCalculator N) :
    Transactions N → SortableTransactions N → Result (SortableTransactions N)
  | [], acc => .ok acc
  | t :: rest, acc =>
    match feeCalc t with
    | .ok fee =>
      let (size, hash) := t.SizeHash c
      if size = 0 then .panic "runtime error: integer divide by zero"
      else
        newSortableLoop c feeCalc rest
          ⟨acc.Txns ++ [t], acc.Fees ++ [feePriority fee size], acc.Hashes ++ [hash]⟩
    | .error _ => newSortableLoop c feeCalc rest acc

/-- The function `newSortableTransactions`. -/
def newSortableTransactions (c : Cipher N) (txns : Transactions N)
    (feeCalc : FeeCalculator N) : Result (SortableTransactions N) :=
  newSortableLoop c feeCalc txns ⟨[], [], []⟩

/-- The method `SortableTransactions.Len`. -/
def SortableTransactions.Len (self : SortableTransactions N) : Nat :=
  self.Txns.length

/-- The method `SortableTransactions.Less`; for an index out of range, where
Go panics, the value is `false`. -/
def SortableTransactions.Less (self : SortableTransactions N) (i j : Nat) : Bool :=
  match self.Fees[i]?, self.Fees[j]?, self.Hashes[i]?, self.Hashes[j]? with
  | some fi, some fj, some hi, some hj =>
    if fi = fj then bytesCompare hi.bytes hj.bytes < 0
    else fi > fj
  | _, _, _, _ => false

/-- The assignment `a[i], a[j] = a[j], a[i]` on a slice; for an index out of
range, where Go panics, the slice is left as it is. -/
def swapAt {α : Type} (a : List α) (i j : Nat) : List α :=
  match a[i]?, a[j]? with
  | some x, some y => (a.set i y).set j x
  | _, _ => a

/-- The method `SortableTransactions.Swap`. -/
def SortableTransactions.Swap (self : SortableTransactions N) (i j : Nat) :
    SortableTransactions N :=
  ⟨swapAt self.Txns i j, swapAt self.Fees i j, swapAt self.Hashes i j⟩

/-- The inner loop of the standard library's `insertionSort(data, a, b)`:
`for j := i; j > a && data.Less(j, j-1); j--` with the body
`data.Swap(j, j-1)`. -/
def insertionInner (data : SortableTransactions N) (a : Nat) :
    Nat → SortableTransactions N
  | 0 => data
  | j + 1 =>
    if j + 1 > a ∧ data.Less (j + 1) j then insertionInner (data.Swap (j + 1) j) a j
    else data

/-- The outer loop of `insertionSort(data, a, b)`, from index `i` for `n`
more rounds. -/
def insertionOuter (a : Nat) : Nat → Nat → SortableTransactions N → SortableTransactions N
  | _, 0, data => data
  | i, n + 1, data => insertionOuter a (i + 1) n (insertionInner data a i)

/-- The standard library's `insertionSort(data, a, b)`:
`for i := a + 1; i < b; i++` around the inner loop. -/
def insertionSort (data : SortableTransactions N) (a b : Nat) : SortableTransactions N :=
  insertionOuter a (a + 1) (b - (a + 1)) data

/-- The method `SortableTransactions.Sort`, a call of the standard library's
`sort.Sort`. The library promises that the data ends up in ascending order by
`Less`, rearranged by `Swap` calls only, and promises no stability; its
`insertionSort`, which meets that contract, stands for it here. -/
def SortableTransactions.Sort (self : SortableTransactions N) : SortableTransactions N :=
  insertionSort self 0 self.Len

/-- The loop of the standard library's `sort.IsSorted`:
`for i := n - 1; i > 0; i--`, which returns `false` at the first `i` with
`data.Less(i, i-1)`. -/
def isSortedFrom (data : SortableTransactions N) : Nat → Bool
  | 0 => true
  | i + 1 => if data.Less (i + 1) i then false else isSortedFrom data i

/-- The method `SortableTransactions.IsSorted`. -/
def SortableTransactions.IsSorted (self : SortableTransactions N) : Bool :=
  isSortedFrom self (self.Len - 1)

/-- The function `SortTransactions`. -/
def SortTransactions (c : Cipher N) (txns : Transactions N) (feeCalc : FeeCalculator N) :
    Result (Transactions N) :=
  (newSortableTransactions c txns feeCalc).bind fun sorted => .ok sorted.Sort.Txns

/-- The fee priority that `newSortableTransactions` stores for `t`: defined
when `feeCalc` returns no error for `t`. -/
def priorityOf (feeCalc : FeeCalculator N) (t : Transaction N) : Option Uint64 :=
  match feeCalc t with
  | .ok fee => some (feePriority fee t.Size)
  | .error _ => none

/-- Whether `feeCalc` returns no error for `t`. -/
def feeOk (feeCalc : FeeCalculator N) (t : Transaction N) : Bool :=
  match feeCalc t with
  | .ok _ => true
  | .error _ => false

/-! ## Size and truncation of `Transactions` -/

/-- The method `Transactions.Size`: the sum of the sizes, a Go `int`. The
sizes are lengths of byte slices held in memory, so the sum does not reach
`2 ^ 63` and is computed without wrap-around. -/
def Transactions.Size (self : Transactions N) : Int :=
  self.foldl (fun size t => size + (t.Size : Int)) 0

/-- The loop of `TruncateBytesTo` over `self[i:]`, with the running `total`. -/
def truncateLoop (self : Transactions N) (size : Int) :
    Transactions N → Nat → Int → Transactions N
  | [], _, _ => self
  | t :: rest, i, total =>
    let pending : Int := t.Size
    if total + pending > size then self.take i
    else truncateLoop self size rest (i + 1) (total + pending)

/-- The method `Transactions.TruncateBytesTo`. -/
def Transactions.TruncateBytesTo (self : Transactions N) (size : Int) : Transactions N :=
  truncateLoop self size self 0 0

/-! ## The selector on one list of entries

The three slices of a `SortableTransactions` always move together, so a
sortable is described by the list of its entries `(txn, fee, hash)`. The
definitions below are the vocabulary of the proofs about `Sort`. -/

/-- One position of a `SortableTransactions`: transaction, fee, hash. -/
abbrev Entry (N : Nat) := Transaction N × Uint64 × SHA256

/-- The `SortableTransactions` whose position `i` holds the `i`-th entry. -/
def ofEntries (l : List (Entry N)) : SortableTransactions N :=
  ⟨l.map (·.1), l.map (·.2.1), l.map (·.2.2)⟩

/-- The comparison of `Less` on two entries. -/
def entryLess (x y : Entry N) : Bool :=
  if x.2.1 = y.2.1 then bytesCompare x.2.2.bytes y.2.2.bytes < 0
  else x.2.1 > y.2.1

/-- What the inner loop of `insertionSort` does to the already sorted prefix,
read from its last element backwards, when it inserts `x`. -/
def insertRev (x : Entry N) : List (Entry N) → List (Entry N)
  | [] => [x]
  | y :: ys => if entryLess x y then y :: insertRev x ys else x :: y :: ys

/-- The entries that `newSortableTransactions` writes for a list of
transactions: one for each transaction whose fee is computed. -/
def entriesOf (c : Cipher N) (feeCalc : FeeCalculator N) (txns : Transactions N) :
    List (Entry N) :=
  txns.filterMap fun t =>
    match feeCalc t with
    | .ok fee => some (t, feePriority fee t.Size, t.Hash c)
    | .error _ => none

/-- The contract of the standard library's `sort.Sort`, said of a procedure
`run` in its place: the data is rearranged, the three slices together as
`Swap` moves them, and ends in ascending order by `Less`, no entry being
`Less` than an earlier one. Nothing is promised about the order of entries
that `Less` does not order. -/
def MeetsSortContract (run : SortableTransactions N → SortableTransactions N) : Prop :=
  ∀ l : List (Entry N), ∃ r : List (Entry N),
    run (ofEntries l) = ofEntries r ∧ r.Perm l ∧ r.Pairwise fun a b => ¬ entryLess b a = true

/-- The function `SortTransactions` with the procedure `run` in the place of
`sort.Sort`; with `run = SortableTransactions.Sort` it is `SortTransactions`. -/
def SortTransactionsBy (c : Cipher N)
    (run : SortableTransactions N → SortableTransactions N) (txns : Transactions N)
    (feeCalc : FeeCalculator N) : Result (Transactions N) :=
  (newSortableTransactions c txns feeCalc).bind fun sorted => .ok (run sorted).Txns

/-- A sorting procedure other than `insertionSort`: on two or more entries
it first calls `data.Swap(1, 0)` and then runs `insertionSort`. Like
`sort.Sort` it rearranges the data by `Swap` calls only and ends in order; it
leaves entries that `Less` does not order in another order than
`insertionSort` does. -/
def swapThenSort (data : SortableTransactions N) : SortableTransactions N :=
  if data.Len < 2 then data.Sort else (data.Swap 1 0).Sort

/-- The coin rule that the last loop of `Verify` tests for one output. -/
def coinsOk (txo : TransactionOutput N) : Prop :=
  txo.Coins.val ≠ 0 ∧ txo.Coins.val % 1000000 = 0

instance (txo : TransactionOutput N) : Decidable (coinsOk txo) := by
  unfold coinsOk
  exact inferInstance

/-! ## Sample data -/

/-- A toy cipher over 1-byte addresses: hashes are checksums, every signature
whose first byte is nonzero verifies. -/
def sampleCipher : Cipher 1 where
  SumSHA256 := fun b => FixedBytes.fill 32 ⟨(b.map Fin.val).sum % 256, Nat.mod_lt _ (by decide)⟩
  SumDoubleSHA256 := fun b => FixedBytes.fill 32 ⟨(b.map Fin.val).sum % 251, by omega⟩
  SignHash := fun h _ => ⟨h.bytes ++ h.bytes ++ [1], by simp [h.size_eq]⟩
  VerifySignedHash := fun sig _ => if sig.bytes.head? = some 0 then some "bad signature" else none
  UxBodyHash := fun u =>
    FixedBytes.fill 32 ⟨(u.Address.bytes.map Fin.val).sum % 256, Nat.mod_lt _ (by decide)⟩

/-- An output of the sample transactions. -/
def sampleOut (a : Byte) (coins hours : Nat) : TransactionOutput 1 :=
  ⟨⟨[a], rfl⟩, ⟨coins % 2 ^ 64, Nat.mod_lt _ (by decide)⟩, ⟨hours % 2 ^ 64, Nat.mod_lt _ (by decide)⟩⟩

/-- A transaction with the given inputs and outputs, its header hash
recomputed and one verifying signature per input. -/
def sampleTx (ins : List SHA256) (outs : List (TransactionOutput 1)) : Transaction 1 :=
  let body : Transaction 1 := ⟨⟨FixedBytes.fill 32 0, []⟩, ins, outs⟩
  ⟨⟨body.hashInner sampleCipher, ins.map (fun _ => FixedBytes.fill 65 1)⟩, ins, outs⟩

/-- A cipher whose every primitive is constant. -/
def constCipher : Cipher 1 where
  SumSHA256 := fun _ => FixedBytes.fill 32 0
  SumDoubleSHA256 := fun _ => FixedBytes.fill 32 0
  SignHash := fun _ _ => FixedBytes.fill 65 1
  VerifySignedHash := fun _ _ => none
  UxBodyHash := fun _ => FixedBytes.fill 32 0

/-- An unsigned transaction with 65536 inputs. -/
def overfullTx : Transaction 1 :=
  ⟨⟨FixedBytes.fill 32 0, []⟩, List.replicate 65536 (FixedBytes.fill 32 0),
    [sampleOut 7 1000000 0]⟩

/-- A transaction with 65535 inputs and as many signatures. -/
def maxInputsTx : Transaction 1 :=
  ⟨⟨FixedBytes.fill 32 0, List.replicate 65535 (FixedBytes.fill 65 1)⟩,
    List.replicate 65535 (FixedBytes.fill 32 0), [sampleOut 7 1000000 0]⟩

/-- Four sample transactions with pairwise distinct outer hashes. -/
def sampleTxns : Transactions 1 :=
  [sampleTx [FixedBytes.fill 32 1] [sampleOut 7 1000000 0],
   sampleTx [FixedBytes.fill 32 2] [sampleOut 8 2000000 0],
   sampleTx [FixedBytes.fill 32 3] [sampleOut 9 3000000 0],
   sampleTx [FixedBytes.fill 32 4] [sampleOut 9 3000000 0]]

/-- A fee calculator that fails on a transaction without outputs or with
2000000 coins in the first output, and otherwise charges the coins of the
first output. -/
def sampleFee : FeeCalculator 1 := fun t =>
  match t.Out with
  | [] => .error "no outputs"
  | o :: _ => if o.Coins.val = 2000000 then .error "no fee" else .ok o.Coins

/-- Two different sample transactions with the same outer hash under
`sampleCipher`, whose hashes are checksums: they spend the same two hashes in
opposite orders. -/
def tiedTxns : Transactions 1 :=
  [sampleTx [FixedBytes.fill 32 1, FixedBytes.fill 32 2] [sampleOut 7 1000000 0],
   sampleTx [FixedBytes.fill 32 2, FixedBytes.fill 32 1] [sampleOut 7 1000000 0]]

/-- The fee `2 ^ 54`, whose product with 1024 is `2 ^ 64`. -/
def bigFee : Uint64 := ⟨2 ^ 54, by decide⟩

/-- A fee calculator that charges `2 ^ 54` for transactions with 2000000
coins in the first output and 1 for all others. -/
def bigFeeCalc : FeeCalculator 1 := fun t =>
  match t.Out with
  | [] => .ok ⟨1, by decide⟩
  | o :: _ => if o.Coins.val = 2000000 then .ok bigFee else .ok ⟨1, by decide⟩

/-! ## Properties -/

/-! ### Auxiliary facts about the loops of `Verify` -/

theorem mapSet_length_le (m : List SHA256) (k : SHA256) :
    (mapSet m k).length ≤ m.length + 1 := by
  unfold mapSet
  split <;> simp

theorem foldl_mapSet_length_le (l acc : List SHA256) :
    (l.foldl mapSet acc).length ≤ acc.length + l.length := by
  induction l generalizing acc with
  | nil => simp
  | cons x xs ih =>
    have h1 := ih (mapSet acc x)
    have h2 := mapSet_length_le acc x
    simp only [List.foldl_cons, List.length_cons]
    omega

/-- Filling a map from a list of keys yields as many entries as the list is
long exactly when the keys are pairwise distinct and not yet in the map. -/
theorem foldl_mapSet_length_eq_iff (l acc : List SHA256) :
    (l.foldl mapSet acc).length = acc.length + l.length ↔
      l.Nodup ∧ ∀ x ∈ l, x ∉ acc := by
  induction l generalizing acc with
  | nil => simp
  | cons x xs ih =>
    simp only [List.foldl_cons, List.length_cons, List.nodup_cons, List.mem_cons,
      forall_eq_or_imp]
    by_cases hx : x ∈ acc
    · have hm : mapSet acc x = acc := by simp [mapSet, hx]
      have hle := foldl_mapSet_length_le xs acc
      rw [hm]
      constructor
      · intro h; omega
      · intro h; exact absurd hx h.2.1
    · have hm : mapSet acc x = x :: acc := by simp [mapSet, hx]
      rw [hm]
      have := ih (x :: acc)
      simp only [List.length_cons, List.mem_cons, not_or] at this
      rw [show acc.length + (xs.length + 1) = acc.length + 1 + xs.length by omega, this]
      constructor
      · rintro ⟨hnd, hall⟩
        exact ⟨⟨fun hmem => (hall x hmem).1 rfl, hnd⟩, hx, fun y hy => (hall y hy).2⟩
      · rintro ⟨⟨hnm, hnd⟩, _, hall⟩
        exact ⟨hnd, fun y hy => ⟨fun hyx => hnm (hyx ▸ hy), hall y hy⟩⟩

theorem uxOutsOf_length_eq_iff (ins : List SHA256) :
    (uxOutsOf ins).length = ins.length ↔ ins.Nodup := by
  have := foldl_mapSet_length_eq_iff ins []
  simpa [uxOutsOf] using this

theorem outputsOf_eq (c : Cipher N) (tx : Transaction N) :
    outputsOf c tx =
      uxOutsOf (tx.Out.map fun txo => c.UxBodyHash (uxBodyOf (tx.Hash c) txo)) := by
  simp [outputsOf, uxOutsOf, List.foldl_map]

theorem outputsOf_length_eq_iff (c : Cipher N) (tx : Transaction N) :
    (outputsOf c tx).length = tx.Out.length ↔
      (tx.Out.map fun txo => c.UxBodyHash (uxBodyOf (tx.Hash c) txo)).Nodup := by
  rw [outputsOf_eq]
  have := uxOutsOf_length_eq_iff (tx.Out.map fun txo => c.UxBodyHash (uxBodyOf (tx.Hash c) txo))
  simpa using this

/-- A list has a repeated element exactly when two distinct positions hold
equal elements. -/
theorem not_nodup_iff_exists_index {α : Type} (l : List α) :
    ¬ l.Nodup ↔ ∃ i j : Fin l.length, i ≠ j ∧ l.get i = l.get j := by
  rw [List.nodup_iff_injective_get]
  unfold Function.Injective
  push_neg
  constructor
  · rintro ⟨i, j, he, hne⟩; exact ⟨i, j, hne, he⟩
  · rintro ⟨i, j, hne, he⟩; exact ⟨i, j, he, hne⟩

theorem verifySigs_eq_some (c : Cipher N) (h : SHA256) (sigs : List Sig) (e : Error)
    (hs : verifySigs c h sigs = some e) : ∃ msg, e = Error.Signature msg := by
  induction sigs with
  | nil => simp [verifySigs] at hs
  | cons s rest ih =>
    unfold verifySigs at hs
    split at hs
    · exact ⟨_, (Option.some.inj hs).symm⟩
    · exact ih hs

theorem verifySigs_eq_none_iff (c : Cipher N) (h : SHA256) (sigs : List Sig) :
    verifySigs c h sigs = none ↔ ∀ sig ∈ sigs, c.VerifySignedHash sig h = none := by
  induction sigs with
  | nil => simp [verifySigs]
  | cons s rest ih =>
    unfold verifySigs
    cases hv : c.VerifySignedHash s h with
    | some err => simp [hv]
    | none => simp [hv, ih]

theorem verifyCoins_eq_none_iff (outs : List (TransactionOutput N)) :
    verifyCoins outs = none ↔ ∀ txo ∈ outs, coinsOk txo := by
  induction outs with
  | nil => simp [verifyCoins]
  | cons o rest ih =>
    unfold verifyCoins
    by_cases h0 : o.Coins.val = 0
    · simp [h0, coinsOk]
    · by_cases h1 : o.Coins.val % 1000000 = 0
      · simp [h0, h1, ih, coinsOk]
      · simp [h0, h1, coinsOk]

theorem verifyCoins_first_bad (pre post : List (TransactionOutput N))
    (o : TransactionOutput N) (hpre : ∀ txo ∈ pre, coinsOk txo) (ho : ¬ coinsOk o) :
    verifyCoins (pre ++ o :: post) =
      some (if o.Coins.val = 0 then Error.New "Zero coin output"
        else Error.New "Transaction outputs must be multiple of 1e6 base units") := by
  induction pre with
  | nil =>
    simp only [List.nil_append]
    unfold verifyCoins
    by_cases h0 : o.Coins.val = 0
    · simp [h0]
    · have h1 : o.Coins.val % 1000000 ≠ 0 := fun h => ho ⟨h0, h⟩
      simp [h0, h1]
  | cons p rest ih =>
    have hp := hpre p (List.mem_cons_self _ _)
    simp only [List.cons_append]
    unfold verifyCoins
    rw [if_neg hp.1, if_neg (by simpa using hp.2)]
    exact ih (fun t ht => hpre t (List.mem_cons_of_mem _ ht))

theorem verifyCoins_eq_some (outs : List (TransactionOutput N)) (e : Error)
    (h : verifyCoins outs = some e) :
    e = Error.New "Zero coin output" ∨
      e = Error.New "Transaction outputs must be multiple of 1e6 base units" := by
  induction outs with
  | nil => simp [verifyCoins] at h
  | cons o rest ih =>
    unfold verifyCoins at h
    split_ifs at h
    · exact Or.inl (Option.some.inj h).symm
    · exact Or.inr (Option.some.inj h).symm
    · exact ih h

/-- The last two loops of `Verify` return a signature error or one of the two
coin errors. -/
theorem verify_tail_eq_some (c : Cipher N) (tx : Transaction N) (e : Error)
    (h : (match verifySigs c tx.Head.Hash tx.Head.Sigs with
      | some err => some err
      | none => verifyCoins tx.Out) = some e) :
    (∃ msg, e = Error.Signature msg) ∨ e = Error.New "Zero coin output" ∨
      e = Error.New "Transaction outputs must be multiple of 1e6 base units" := by
  cases hs : verifySigs c tx.Head.Hash tx.Head.Sigs with
  | some err =>
    rw [hs] at h
    have := verifySigs_eq_some c _ _ _ hs
    cases Option.some.inj h
    exact Or.inl this
  | none =>
    rw [hs] at h
    exact Or.inr (verifyCoins_eq_some _ _ h)

/-- The body of `Verify` with the local `h` substituted. -/
theorem verify_unfold (c : Cipher N) (tx : Transaction N) (maxSize : Int) :
    tx.Verify c maxSize =
      if tx.hashInner c ≠ tx.Head.Hash then some (.New "Invalid header hash")
      else if tx.In.length = 0 then some (.New "No inputs")
      else if tx.Out.length = 0 then some (.New "No outputs")
      else if tx.Head.Sigs.length ≠ tx.In.length then
        some (.New "Invalid number of signatures")
      else if tx.Head.Sigs.length ≥ MaxUint16 then
        some (.New "Too many signatures and inputs")
      else if (tx.Size : Int) > maxSize then some (.New "Transaction too large")
      else if (uxOutsOf tx.In).length ≠ tx.In.length then
        some (.New "Duplicate spend")
      else if (outputsOf c tx).length ≠ tx.Out.length then
        some (.New "Duplicate output in transaction")
      else
        match verifySigs c tx.Head.Hash tx.Head.Sigs with
        | some err => some err
        | none => verifyCoins tx.Out := rfl

/-! ### The order of the checks in `Verify` -/

/-- C4: a transaction whose header hash differs from the inner hash
`SumSHA256(encode(In) ++ encode(Out))` gets the error "Invalid header hash"
from `Verify`, whatever its inputs, outputs, signatures, size and coin
amounts are; in particular the result is never a signature error. -/
theorem verify_invalid_header_hash (c : Cipher N) (tx : Transaction N) (maxSize : Int)
    (h : tx.Head.Hash ≠ c.SumSHA256 (encodeInputs tx.In ++ encodeOutputs tx.Out)) :
    tx.Verify c maxSize = some (Error.New "Invalid header hash") ∧
      ∀ msg, tx.Verify c maxSize ≠ some (Error.Signature msg) := by
  have h1 : tx.Verify c maxSize = some (Error.New "Invalid header hash") := by
    unfold Transaction.Verify Transaction.hashInner
    simp only []
    rw [if_pos (Ne.symm h)]
  refine ⟨h1, fun msg hm => ?_⟩
  rw [h1] at hm
  cases hm

set_option maxRecDepth 100000 in
/-- Witness of C4: the sample transaction with a zeroed header hash and a
signature that does not verify. -/
theorem verify_invalid_header_hash_witness :
    (⟨⟨FixedBytes.fill 32 0, [FixedBytes.fill 65 0]⟩, [FixedBytes.fill 32 3],
        [sampleOut 7 1 0]⟩ : Transaction 1).Verify sampleCipher 10 =
      some (Error.New "Invalid header hash") :=
  (verify_invalid_header_hash sampleCipher
    ⟨⟨FixedBytes.fill 32 0, [FixedBytes.fill 65 0]⟩, [FixedBytes.fill 32 3], [sampleOut 7 1 0]⟩
    10 (by decide)).1

/-- Counterexample to C5 as stated: a transaction with 65535 signatures and
inputs passes checks 1-4 and has fewer than `2 ^ 16` signatures, yet `Verify`
returns "Too many signatures and inputs". -/
theorem verify_too_many_signatures_counterexample :
    maxInputsTx.Head.Hash =
        constCipher.SumSHA256 (encodeInputs maxInputsTx.In ++ encodeOutputs maxInputsTx.Out) ∧
      maxInputsTx.In.length ≥ 1 ∧ maxInputsTx.Out.length ≥ 1 ∧
      maxInputsTx.Head.Sigs.length = maxInputsTx.In.length ∧
      ¬ (maxInputsTx.Verify constCipher 0 = some (Error.New "Too many signatures and inputs") ↔
          maxInputsTx.Head.Sigs.length ≥ 2 ^ 16) := by
  have hlen : maxInputsTx.Head.Sigs.length = 65535 := List.length_replicate _ _
  have hin : maxInputsTx.In.length = 65535 := List.length_replicate _ _
  have hout : maxInputsTx.Out.length = 1 := rfl
  have hh : maxInputsTx.hashInner constCipher = maxInputsTx.Head.Hash := rfl
  refine ⟨rfl, by omega, by omega, by omega, ?_⟩
  have hv : maxInputsTx.Verify constCipher 0 =
      some (Error.New "Too many signatures and inputs") := by
    rw [verify_unfold]
    simp [hh, hlen, hin, hout, MaxUint16]
  rw [hv, hlen]
  simp

/-- C5 (amended): for a transaction that passes checks 1-4 of `Verify`,
`Verify` returns "Too many signatures and inputs" if and only if the number
of signatures is at least `math.MaxUint16 = 2 ^ 16 - 1 = 65535`. -/
theorem verify_too_many_signatures_iff (c : Cipher N) (tx : Transaction N) (maxSize : Int)
    (h1 : tx.Head.Hash = c.SumSHA256 (encodeInputs tx.In ++ encodeOutputs tx.Out))
    (h2 : tx.In.length ≥ 1) (h3 : tx.Out.length ≥ 1)
    (h4 : tx.Head.Sigs.length = tx.In.length) :
    tx.Verify c maxSize = some (Error.New "Too many signatures and inputs") ↔
      tx.Head.Sigs.length ≥ 2 ^ 16 - 1 := by
  have hh : tx.hashInner c = tx.Head.Hash := h1.symm
  have h2' : tx.In.length ≠ 0 := by omega
  have h3' : tx.Out.length ≠ 0 := by omega
  rw [verify_unfold]
  simp only [hh, ne_eq, not_true_eq_false, if_false, h2', h3', h4]
  by_cases h5 : tx.In.length ≥ MaxUint16
  · simp only [h5, if_true, true_iff]
    simpa [MaxUint16] using h5
  · simp only [h5, if_false]
    have h5' : ¬ tx.In.length ≥ 2 ^ 16 - 1 := by simpa [MaxUint16] using h5
    simp only [h5', iff_false]
    intro hV
    split_ifs at hV
    all_goals first
      | (simp at hV)
      | (rcases verify_tail_eq_some c tx _ hV with ⟨msg, hm⟩ | hm | hm <;> simp at hm)

set_option maxRecDepth 100000 in
/-- Witness of C5 (amended): the one-input sample transaction passes checks
1-4 and has fewer than 65535 signatures. -/
theorem verify_too_many_signatures_iff_witness :
    ((sampleTx [FixedBytes.fill 32 0] [sampleOut 7 1000000 0]).Verify sampleCipher 1000 =
        some (Error.New "Too many signatures and inputs") ↔
      (sampleTx [FixedBytes.fill 32 0] [sampleOut 7 1000000 0]).Head.Sigs.length ≥ 2 ^ 16 - 1) :=
  verify_too_many_signatures_iff sampleCipher
    (sampleTx [FixedBytes.fill 32 0] [sampleOut 7 1000000 0]) 1000
    (by decide) (by decide) (by decide) (by decide)

/-- The result of `Verify` for a transaction that passes checks 1-5. -/
theorem verify_after_check5 (c : Cipher N) (tx : Transaction N) (maxSize : Int)
    (h1 : tx.Head.Hash = c.SumSHA256 (encodeInputs tx.In ++ encodeOutputs tx.Out))
    (h2 : tx.In.length ≥ 1) (h3 : tx.Out.length ≥ 1)
    (h4 : tx.Head.Sigs.length = tx.In.length) (h5 : tx.Head.Sigs.length < MaxUint16) :
    tx.Verify c maxSize =
      if (tx.Size : Int) > maxSize then some (.New "Transaction too large")
      else if (uxOutsOf tx.In).length ≠ tx.In.length then
        some (.New "Duplicate spend")
      else if (outputsOf c tx).length ≠ tx.Out.length then
        some (.New "Duplicate output in transaction")
      else
        match verifySigs c tx.Head.Hash tx.Head.Sigs with
        | some err => some err
        | none => verifyCoins tx.Out := by
  have hh : tx.hashInner c = tx.Head.Hash := h1.symm
  have h2' : tx.In.length ≠ 0 := by omega
  have h3' : tx.Out.length ≠ 0 := by omega
  have h5' : ¬ tx.In.length ≥ MaxUint16 := by omega
  rw [verify_unfold]
  simp only [hh, ne_eq, not_true_eq_false, if_false, h2', h3', h4, h5']

/-- C6: for a transaction that passes checks 1-5 of `Verify`, the result is
"Transaction too large" if and only if `Size(tx) > maxSize`, whatever the
inputs, outputs, signatures and coin amounts are; a transaction of size
exactly `maxSize` is not rejected for size and one of size `maxSize + 1` is. -/
theorem verify_too_large_iff (c : Cipher N) (tx : Transaction N) (maxSize : Int)
    (h1 : tx.Head.Hash = c.SumSHA256 (encodeInputs tx.In ++ encodeOutputs tx.Out))
    (h2 : tx.In.length ≥ 1) (h3 : tx.Out.length ≥ 1)
    (h4 : tx.Head.Sigs.length = tx.In.length) (h5 : tx.Head.Sigs.length < MaxUint16) :
    (tx.Verify c maxSize = some (Error.New "Transaction too large") ↔
        (tx.Size : Int) > maxSize) ∧
      ((tx.Size : Int) = maxSize →
        tx.Verify c maxSize ≠ some (Error.New "Transaction too large")) ∧
      ((tx.Size : Int) = maxSize + 1 →
        tx.Verify c maxSize = some (Error.New "Transaction too large")) := by
  have key : tx.Verify c maxSize = some (Error.New "Transaction too large") ↔
      (tx.Size : Int) > maxSize := by
    rw [verify_after_check5 c tx maxSize h1 h2 h3 h4 h5]
    by_cases h6 : (tx.Size : Int) > maxSize
    · simp only [h6, if_true]
    · simp only [h6, if_false, iff_false]
      intro hV
      split_ifs at hV
      all_goals first
        | (simp at hV)
        | (rcases verify_tail_eq_some c tx _ hV with ⟨msg, hm⟩ | hm | hm <;> simp at hm)
  refine ⟨key, fun he => ?_, fun he => ?_⟩
  · intro hV
    have := key.1 hV
    omega
  · exact key.2 (by omega)

set_option maxRecDepth 100000 in
/-- Witness of C6: a sample transaction of 255 bytes with a duplicated input
and a zero-coin output, checked against `maxSize = 254`. -/
theorem verify_too_large_iff_witness :
    (sampleTx [FixedBytes.fill 32 0, FixedBytes.fill 32 0] [sampleOut 7 0 0]).Verify
        sampleCipher 254 = some (Error.New "Transaction too large") :=
  ((verify_too_large_iff sampleCipher
    (sampleTx [FixedBytes.fill 32 0, FixedBytes.fill 32 0] [sampleOut 7 0 0]) 254
    (by decide) (by decide) (by decide) (by decide) (by decide)).2.2 (by decide))

/-- C7: for a transaction that passes checks 1-6 of `Verify`, the result is
"Duplicate spend" if and only if two distinct positions of `In` hold the same
hash: the map-cardinality test of the code is pairwise distinctness. -/
theorem verify_duplicate_spend_iff (c : Cipher N) (tx : Transaction N) (maxSize : Int)
    (h1 : tx.Head.Hash = c.SumSHA256 (encodeInputs tx.In ++ encodeOutputs tx.Out))
    (h2 : tx.In.length ≥ 1) (h3 : tx.Out.length ≥ 1)
    (h4 : tx.Head.Sigs.length = tx.In.length) (h5 : tx.Head.Sigs.length < MaxUint16)
    (h6 : (tx.Size : Int) ≤ maxSize) :
    tx.Verify c maxSize = some (Error.New "Duplicate spend") ↔
      ∃ i j : Fin tx.In.length, i ≠ j ∧ tx.In.get i = tx.In.get j := by
  rw [← not_nodup_iff_exists_index, ← uxOutsOf_length_eq_iff,
    verify_after_check5 c tx maxSize h1 h2 h3 h4 h5]
  have h6' : ¬ (tx.Size : Int) > maxSize := by omega
  simp only [h6', if_false]
  by_cases h7 : (uxOutsOf tx.In).length = tx.In.length
  · simp only [h7, ne_eq, not_true_eq_false, if_false, iff_false]
    intro hV
    split_ifs at hV
    all_goals first
      | (simp at hV)
      | (rcases verify_tail_eq_some c tx _ hV with ⟨msg, hm⟩ | hm | hm <;> simp at hm)
  · simp only [h7, ne_eq, not_false_eq_true, if_true]

set_option maxRecDepth 100000 in
/-- Witness of C7: a sample transaction that spends the same hash twice. -/
theorem verify_duplicate_spend_iff_witness :
    (sampleTx [FixedBytes.fill 32 0, FixedBytes.fill 32 0] [sampleOut 7 0 0]).Verify
        sampleCipher 255 = some (Error.New "Duplicate spend") :=
  (verify_duplicate_spend_iff sampleCipher
    (sampleTx [FixedBytes.fill 32 0, FixedBytes.fill 32 0] [sampleOut 7 0 0]) 255
    (by decide) (by decide) (by decide) (by decide) (by decide) (by decide)).2
    ⟨⟨0, by decide⟩, ⟨1, by decide⟩, by decide, by decide⟩

/-- C8: for a transaction that passes checks 1-7 of `Verify`, the result is
"Duplicate output in transaction" if and only if two outputs at distinct
positions have equal derived `UxBody` hashes, each `UxBody` being
`(tx.Hash(), Address, Coins, Hours)` of its output; in particular two outputs
at distinct positions with the same address, coins and hours give this error,
whatever their coin amounts are. -/
theorem verify_duplicate_output_iff (c : Cipher N) (tx : Transaction N) (maxSize : Int)
    (h1 : tx.Head.Hash = c.SumSHA256 (encodeInputs tx.In ++ encodeOutputs tx.Out))
    (h2 : tx.In.length ≥ 1) (h3 : tx.Out.length ≥ 1)
    (h4 : tx.Head.Sigs.length = tx.In.length) (h5 : tx.Head.Sigs.length < MaxUint16)
    (h6 : (tx.Size : Int) ≤ maxSize) (h7 : tx.In.Nodup) :
    (tx.Verify c maxSize = some (Error.New "Duplicate output in transaction") ↔
        ∃ i j : Fin tx.Out.length, i ≠ j ∧
          c.UxBodyHash ⟨tx.Hash c, (tx.Out.get i).Address, (tx.Out.get i).Coins,
              (tx.Out.get i).Hours⟩ =
            c.UxBodyHash ⟨tx.Hash c, (tx.Out.get j).Address, (tx.Out.get j).Coins,
              (tx.Out.get j).Hours⟩) ∧
      (∀ i j : Fin tx.Out.length, i ≠ j →
        (tx.Out.get i).Address = (tx.Out.get j).Address →
        (tx.Out.get i).Coins = (tx.Out.get j).Coins →
        (tx.Out.get i).Hours = (tx.Out.get j).Hours →
        tx.Verify c maxSize = some (Error.New "Duplicate output in transaction")) := by
  have key : tx.Verify c maxSize = some (Error.New "Duplicate output in transaction") ↔
      ¬ (tx.Out.map fun txo => c.UxBodyHash (uxBodyOf (tx.Hash c) txo)).Nodup := by
    rw [← outputsOf_length_eq_iff, verify_after_check5 c tx maxSize h1 h2 h3 h4 h5]
    have h6' : ¬ (tx.Size : Int) > maxSize := by omega
    have h7' : (uxOutsOf tx.In).length = tx.In.length := (uxOutsOf_length_eq_iff _).2 h7
    simp only [h6', if_false, h7', ne_eq, not_true_eq_false]
    by_cases h8 : (outputsOf c tx).length = tx.Out.length
    · simp only [h8, not_true_eq_false, if_false, iff_false]
      intro hV
      rcases verify_tail_eq_some c tx _ hV with ⟨msg, hm⟩ | hm | hm <;> simp at hm
    · simp only [h8, not_false_eq_true, if_true]
  have idx : (¬ (tx.Out.map fun txo => c.UxBodyHash (uxBodyOf (tx.Hash c) txo)).Nodup) ↔
      ∃ i j : Fin tx.Out.length, i ≠ j ∧
        c.UxBodyHash (uxBodyOf (tx.Hash c) (tx.Out.get i)) =
          c.UxBodyHash (uxBodyOf (tx.Hash c) (tx.Out.get j)) := by
    rw [not_nodup_iff_exists_index]
    constructor
    · rintro ⟨i, j, hne, he⟩
      refine ⟨⟨i.1, by simpa using i.2⟩, ⟨j.1, by simpa using j.2⟩, ?_, ?_⟩
      · intro h; exact hne (Fin.ext (by simpa using congrArg Fin.val h))
      · simpa using he
    · rintro ⟨i, j, hne, he⟩
      refine ⟨⟨i.1, by simp⟩, ⟨j.1, by simp⟩, ?_, ?_⟩
      · intro h; exact hne (Fin.ext (by simpa using congrArg Fin.val h))
      · simpa using he
  refine ⟨key.trans idx, fun i j hne ha hc hh => ?_⟩
  apply (key.trans idx).2
  refine ⟨i, j, hne, ?_⟩
  simp only [uxBodyOf, ha, hc, hh]

set_option maxRecDepth 100000 in
/-- Witness of C8: a sample transaction with the same zero-coin output
twice. -/
theorem verify_duplicate_output_iff_witness :
    (sampleTx [FixedBytes.fill 32 0] [sampleOut 7 0 0, sampleOut 7 0 0]).Verify
        sampleCipher 255 = some (Error.New "Duplicate output in transaction") :=
  (verify_duplicate_output_iff sampleCipher
    (sampleTx [FixedBytes.fill 32 0] [sampleOut 7 0 0, sampleOut 7 0 0]) 255
    (by decide) (by decide) (by decide) (by decide) (by decide) (by decide) (by decide)).2
    ⟨0, by decide⟩ ⟨1, by decide⟩ (by decide) (by decide) (by decide) (by decide)

/-- C9: for a transaction that passes checks 1-9 of `Verify` (everything up
to and including the signature loop), `Verify` returns `nil` if and only if
every output has `Coins != 0` and `Coins % 1000000 == 0`; otherwise the first
output in order that breaks the rule decides the error: "Zero coin output"
when its `Coins` is 0, the multiple-of-1e6 error when it is not. -/
theorem verify_coins_rule (c : Cipher N) (tx : Transaction N) (maxSize : Int)
    (h1 : tx.Head.Hash = c.SumSHA256 (encodeInputs tx.In ++ encodeOutputs tx.Out))
    (h2 : tx.In.length ≥ 1) (h3 : tx.Out.length ≥ 1)
    (h4 : tx.Head.Sigs.length = tx.In.length) (h5 : tx.Head.Sigs.length < MaxUint16)
    (h6 : (tx.Size : Int) ≤ maxSize) (h7 : tx.In.Nodup)
    (h8 : (tx.Out.map fun txo => c.UxBodyHash
      ⟨tx.Hash c, txo.Address, txo.Coins, txo.Hours⟩).Nodup)
    (h9 : ∀ sig ∈ tx.Head.Sigs, c.VerifySignedHash sig tx.Head.Hash = none) :
    (tx.Verify c maxSize = none ↔
        ∀ txo ∈ tx.Out, txo.Coins.val ≠ 0 ∧ txo.Coins.val % 1000000 = 0) ∧
      (∀ (pre post : List (TransactionOutput N)) (txo : TransactionOutput N),
        tx.Out = pre ++ txo :: post →
        (∀ p ∈ pre, p.Coins.val ≠ 0 ∧ p.Coins.val % 1000000 = 0) →
        ¬ (txo.Coins.val ≠ 0 ∧ txo.Coins.val % 1000000 = 0) →
        tx.Verify c maxSize =
          some (if txo.Coins.val = 0 then Error.New "Zero coin output"
            else Error.New "Transaction outputs must be multiple of 1e6 base units")) := by
  have key : tx.Verify c maxSize = verifyCoins tx.Out := by
    rw [verify_after_check5 c tx maxSize h1 h2 h3 h4 h5]
    have h6' : ¬ (tx.Size : Int) > maxSize := by omega
    have h7' : (uxOutsOf tx.In).length = tx.In.length := (uxOutsOf_length_eq_iff _).2 h7
    have h8' : (outputsOf c tx).length = tx.Out.length := (outputsOf_length_eq_iff c tx).2 h8
    have h9' : verifySigs c tx.Head.Hash tx.Head.Sigs = none :=
      (verifySigs_eq_none_iff c _ _).2 h9
    simp only [h6', if_false, h7', h8', ne_eq, not_true_eq_false, h9']
  rw [key]
  refine ⟨verifyCoins_eq_none_iff tx.Out, fun pre post txo hout hpre hbad => ?_⟩
  rw [hout]
  exact verifyCoins_first_bad pre post txo hpre hbad

set_option maxRecDepth 100000 in
/-- Witness of C9: a sample transaction whose second output has `Coins == 1`
gets the multiple-of-1e6 error. -/
theorem verify_coins_rule_witness :
    (sampleTx [FixedBytes.fill 32 0] [sampleOut 7 1000000 0, sampleOut 8 1 0]).Verify
        sampleCipher 255 =
      some (Error.New "Transaction outputs must be multiple of 1e6 base units") :=
  (verify_coins_rule sampleCipher
    (sampleTx [FixedBytes.fill 32 0] [sampleOut 7 1000000 0, sampleOut 8 1 0]) 255
    (by decide) (by decide) (by decide) (by decide) (by decide) (by decide) (by decide)
    (by decide) (by decide)).2
    [sampleOut 7 1000000 0] [] (sampleOut 8 1 0) (by decide) (by decide) (by decide)

/-- C1: soundness of `Verify`. When `tx.Verify(maxSize)` returns `nil`, the
header hash is the inner hash, there is at least one input and one output,
there are as many signatures as inputs, fewer than `2 ^ 16` inputs, the size
is at most `maxSize`, the inputs are pairwise distinct, the derived `UxBody`
hashes are pairwise distinct, every output has nonzero coins that are a
multiple of 1000000, and every signature passes `VerifySignedHash`. -/
theorem verify_sound (c : Cipher N) (tx : Transaction N) (maxSize : Int)
    (h : tx.Verify c maxSize = none) :
    tx.Head.Hash = c.SumSHA256 (encodeInputs tx.In ++ encodeOutputs tx.Out) ∧
      tx.In.length ≥ 1 ∧ tx.Out.length ≥ 1 ∧
      tx.Head.Sigs.length = tx.In.length ∧
      tx.In.length < 2 ^ 16 ∧
      (tx.Size : Int) ≤ maxSize ∧
      (∀ i j : Fin tx.In.length, i ≠ j → tx.In.get i ≠ tx.In.get j) ∧
      (∀ i j : Fin tx.Out.length, i ≠ j →
        c.UxBodyHash ⟨tx.Hash c, (tx.Out.get i).Address, (tx.Out.get i).Coins,
            (tx.Out.get i).Hours⟩ ≠
          c.UxBodyHash ⟨tx.Hash c, (tx.Out.get j).Address, (tx.Out.get j).Coins,
            (tx.Out.get j).Hours⟩) ∧
      (∀ txo ∈ tx.Out, txo.Coins.val ≠ 0 ∧ txo.Coins.val % 1000000 = 0) ∧
      (∀ sig ∈ tx.Head.Sigs, c.VerifySignedHash sig tx.Head.Hash = none) := by
  rw [verify_unfold] at h
  split_ifs at h with g1 g2 g3 g4 g5 g6 g7 g8
  have g1' : tx.hashInner c = tx.Head.Hash := not_not.1 g1
  have g4' : tx.Head.Sigs.length = tx.In.length := not_not.1 g4
  have g7' : tx.In.Nodup := (uxOutsOf_length_eq_iff _).1 (not_not.1 g7)
  have g8' := (outputsOf_length_eq_iff c tx).1 (not_not.1 g8)
  have hs : verifySigs c tx.Head.Hash tx.Head.Sigs = none := by
    cases hv : verifySigs c tx.Head.Hash tx.Head.Sigs with
    | none => rfl
    | some e => rw [hv] at h; cases h
  rw [hs] at h
  have hmax : ¬ tx.In.length ≥ 65535 := by
    rw [g4'] at g5; simpa [MaxUint16] using g5
  refine ⟨g1'.symm, by omega, by omega, g4', by omega, by omega, ?_, ?_,
    (verifyCoins_eq_none_iff _).1 h, (verifySigs_eq_none_iff c _ _).1 hs⟩
  · intro i j hne he
    exact (not_nodup_iff_exists_index tx.In).2 ⟨i, j, hne, he⟩ g7'
  · intro i j hne he
    apply (not_nodup_iff_exists_index _).2 _ g8'
    refine ⟨⟨i.1, by simp⟩, ⟨j.1, by simp⟩, ?_, ?_⟩
    · intro h'; exact hne (Fin.ext (by simpa using congrArg Fin.val h'))
    · simpa [uxBodyOf] using he

set_option maxRecDepth 100000 in
/-- Witness of C1: the sample transaction with exactly one input and one
output of 1000000 coins passes `Verify`. -/
theorem verify_sound_witness :
    (sampleTx [FixedBytes.fill 32 0] [sampleOut 7 1000000 0]).Verify sampleCipher 1000000 = none ∧
    (sampleTx [FixedBytes.fill 32 0] [sampleOut 7 1000000 0]).In.length < 2 ^ 16 :=
  ⟨by decide, (verify_sound sampleCipher (sampleTx [FixedBytes.fill 32 0] [sampleOut 7 1000000 0])
    1000000 (by decide)).2.2.2.2.1⟩

/-! ### Encoding and decoding -/

theorem leBytes_length (k v : Nat) : (leBytes k v).length = k := by
  induction k generalizing v with
  | zero => rfl
  | succ k ih => simp [leBytes, ih]

theorem leValue_leBytes (k v : Nat) : leValue (leBytes k v) = v % 256 ^ k := by
  induction k generalizing v with
  | zero => simp [leBytes, leValue, Nat.mod_one]
  | succ k ih =>
    simp only [leBytes, leValue, ih]
    rw [pow_succ, Nat.mul_comm (256 ^ k) 256, Nat.mod_mul, Nat.add_comm]

theorem decodeLE_append (k v : Nat) (rest : List Byte) :
    decodeLE k (leBytes k v ++ rest) = some (v % 256 ^ k, rest) := by
  have hl := leBytes_length k v
  unfold decodeLE
  rw [if_pos (by rw [List.length_append]; omega), List.take_left' hl, List.drop_left' hl,
    leValue_leBytes]

theorem decodeFixed_append {n : Nat} (x : FixedBytes n) (rest : List Byte) :
    decodeFixed n (encodeFixed x ++ rest) = some (x, rest) := by
  obtain ⟨bs, hbs⟩ := x
  subst hbs
  unfold decodeFixed encodeFixed
  simp

theorem decodeUint64_append (x : Uint64) (rest : List Byte) :
    decodeUint64 (leBytes 8 x.val ++ rest) = some (x, rest) := by
  unfold decodeUint64
  rw [decodeLE_append]
  have h1 : x.val % 256 ^ 8 = x.val := Nat.mod_eq_of_lt (by have := x.isLt; norm_num at this ⊢; exact this)
  have h2 : x.val % 2 ^ 64 = x.val := Nat.mod_eq_of_lt x.isLt
  simp only [h1, h2]

theorem decodeTxOut_append (o : TransactionOutput N) (rest : List Byte) :
    decodeTxOut N (encodeTxOut o ++ rest) = some (o, rest) := by
  unfold decodeTxOut encodeTxOut
  simp only [List.append_assoc, decodeFixed_append, decodeUint64_append]

theorem decodeElems_append {α : Type} (enc : α → List Byte)
    (dec : List Byte → Option (α × List Byte))
    (h : ∀ x rest, dec (enc x ++ rest) = some (x, rest)) (xs : List α) (rest : List Byte) :
    decodeElems dec xs.length ((xs.map enc).flatten ++ rest) = some (xs, rest) := by
  induction xs with
  | nil => simp [decodeElems]
  | cons x xs ih =>
    simp only [List.length_cons, List.map_cons, List.flatten_cons, List.append_assoc,
      decodeElems, h, ih]

theorem length_le_flatten {α : Type} (enc : α → List Byte) (h : ∀ x, 1 ≤ (enc x).length)
    (xs : List α) : xs.length ≤ (xs.map enc).flatten.length := by
  induction xs with
  | nil => simp
  | cons x xs ih =>
    have := h x
    simp only [List.length_cons, List.map_cons, List.flatten_cons, List.length_append]
    omega

theorem decodeSeq_append {α : Type} (enc : α → List Byte)
    (dec : List Byte → Option (α × List Byte))
    (h : ∀ x rest, dec (enc x ++ rest) = some (x, rest)) (hpos : ∀ x, 1 ≤ (enc x).length)
    (xs : List α) (hlen : xs.length < 2 ^ 32) (rest : List Byte) :
    decodeSeq dec (encodeSeq enc xs ++ rest) = some (xs, rest) := by
  unfold decodeSeq encodeSeq
  rw [List.append_assoc, decodeLE_append]
  have hm : xs.length % 256 ^ 4 = xs.length := Nat.mod_eq_of_lt (by norm_num at hlen ⊢; exact hlen)
  have hle := length_le_flatten enc hpos xs
  simp only [hm]
  rw [if_pos (by simp only [List.length_append]; omega)]
  exact decodeElems_append enc dec h xs rest

theorem encodeFixed_length {n : Nat} (x : FixedBytes n) : (encodeFixed x).length = n :=
  x.size_eq

theorem encodeTxOut_length (o : TransactionOutput N) : (encodeTxOut o).length = N + 16 := by
  simp [encodeTxOut, encodeFixed_length, leBytes_length]

/-- Decoding the encoding of a transaction whose three sequences are shorter
than `2 ^ 32` gives the transaction back. -/
theorem DeserializeRaw_encode (tx : Transaction N) (hs : tx.Head.Sigs.length < 2 ^ 32)
    (hi : tx.In.length < 2 ^ 32) (ho : tx.Out.length < 2 ^ 32) :
    DeserializeRaw N (encodeTransaction tx) = some tx := by
  unfold DeserializeRaw encodeTransaction encodeHeader encodeInputs encodeOutputs
  simp only [List.append_assoc, decodeFixed_append]
  rw [decodeSeq_append encodeFixed (decodeFixed 65) decodeFixed_append
    (fun x => by rw [encodeFixed_length]; omega) _ hs]
  simp only []
  rw [decodeSeq_append encodeFixed (decodeFixed 32) decodeFixed_append
    (fun x => by rw [encodeFixed_length]; omega) _ hi]
  simp only []
  have := decodeSeq_append encodeTxOut (decodeTxOut N) decodeTxOut_append
    (fun x => by rw [encodeTxOut_length]; omega) tx.Out ho []
  rw [List.append_nil] at this
  rw [this]
  simp

/-- C2: for every transaction whose sequence lengths fit the 4-byte length
prefix, `TransactionDeserialize(tx.Serialize())` returns a transaction with
the same `Head.Hash`, `Head.Sigs`, `In` and `Out` as `tx`, and hence with the
same `Hash()`. -/
theorem serialize_roundtrip (c : Cipher N) (tx : Transaction N)
    (hs : tx.Head.Sigs.length < 2 ^ 32) (hi : tx.In.length < 2 ^ 32)
    (ho : tx.Out.length < 2 ^ 32) :
    ∃ t, TransactionDeserialize N tx.Serialize = Result.ok t ∧
      t.Head.Hash = tx.Head.Hash ∧ t.Head.Sigs = tx.Head.Sigs ∧ t.In = tx.In ∧
      t.Out = tx.Out ∧ t = tx ∧ t.Hash c = tx.Hash c := by
  refine ⟨tx, ?_, rfl, rfl, rfl, rfl, rfl, rfl⟩
  unfold TransactionDeserialize Transaction.Serialize
  rw [DeserializeRaw_encode tx hs hi ho]

set_option maxRecDepth 100000 in
/-- Witness of C2: the round trip of a sample transaction with two inputs and
two outputs. -/
theorem serialize_roundtrip_witness :
    ∃ t, TransactionDeserialize 1
        (sampleTx [FixedBytes.fill 32 0, FixedBytes.fill 32 9]
          [sampleOut 7 1000000 5, sampleOut 8 3000000 0]).Serialize = Result.ok t ∧
      t = sampleTx [FixedBytes.fill 32 0, FixedBytes.fill 32 9]
          [sampleOut 7 1000000 5, sampleOut 8 3000000 0] :=
  let ⟨t, h, _, _, _, _, he, _⟩ := serialize_roundtrip sampleCipher
    (sampleTx [FixedBytes.fill 32 0, FixedBytes.fill 32 9]
      [sampleOut 7 1000000 5, sampleOut 8 3000000 0]) (by decide) (by decide) (by decide)
  ⟨t, h, he⟩

/-! ### The selector: `Less`, `Swap` and the insertion loops on entries -/

theorem getElem?_append_mid {α : Type} (A B : List α) (y x : α) :
    (A ++ y :: x :: B)[A.length]? = some y ∧ (A ++ y :: x :: B)[A.length + 1]? = some x := by
  induction A with
  | nil => simp
  | cons a A ih => simpa using ih

theorem swapAt_append_mid {α : Type} (A B : List α) (y x : α) :
    swapAt (A ++ y :: x :: B) (A.length + 1) A.length = A ++ x :: y :: B := by
  unfold swapAt
  rw [(getElem?_append_mid A B y x).1, (getElem?_append_mid A B y x).2]
  simp only []
  induction A with
  | nil => simp
  | cons a A ih => simp

theorem ofEntries_less_mid (A B : List (Entry N)) (y x : Entry N) :
    (ofEntries (A ++ y :: x :: B)).Less (A.length + 1) A.length = entryLess x y := by
  unfold SortableTransactions.Less ofEntries entryLess
  simp only [List.map_append, List.map_cons]
  have h1 := getElem?_append_mid (A.map (·.2.1)) (B.map (·.2.1)) y.2.1 x.2.1
  have h2 := getElem?_append_mid (A.map (·.2.2)) (B.map (·.2.2)) y.2.2 x.2.2
  simp only [List.length_map] at h1 h2
  rw [h1.1, h1.2, h2.1, h2.2]

theorem ofEntries_swap_mid (A B : List (Entry N)) (y x : Entry N) :
    (ofEntries (A ++ y :: x :: B)).Swap (A.length + 1) A.length =
      ofEntries (A ++ x :: y :: B) := by
  unfold SortableTransactions.Swap ofEntries
  simp only [List.map_append, List.map_cons]
  have h1 := swapAt_append_mid (A.map (·.1)) (B.map (·.1)) y.1 x.1
  have h2 := swapAt_append_mid (A.map (·.2.1)) (B.map (·.2.1)) y.2.1 x.2.1
  have h3 := swapAt_append_mid (A.map (·.2.2)) (B.map (·.2.2)) y.2.2 x.2.2
  simp only [List.length_map] at h1 h2 h3
  rw [h1, h2, h3]

/-- The inner loop started at the position of `x`, behind the sorted prefix
`pre.reverse`, inserts `x` into that prefix. -/
theorem insertionInner_ofEntries (pre post : List (Entry N)) (x : Entry N) :
    insertionInner (ofEntries (pre.reverse ++ x :: post)) 0 pre.length =
      ofEntries ((insertRev x pre).reverse ++ post) := by
  induction pre generalizing post with
  | nil => simp [insertionInner, insertRev]
  | cons y ys ih =>
    have hl : ys.reverse.length = ys.length := List.length_reverse ys
    have hless := ofEntries_less_mid ys.reverse post y x
    have hswap := ofEntries_swap_mid ys.reverse post y x
    rw [hl] at hless hswap
    simp only [List.reverse_cons, List.append_assoc, List.singleton_append, List.length_cons,
      insertionInner, hless, hswap, insertRev]
    by_cases hxy : entryLess x y = true
    · simp only [hxy, and_true, Nat.succ_pos, gt_iff_lt, if_true, List.reverse_cons,
        List.append_assoc, List.singleton_append]
      exact ih (y :: post)
    · simp only [hxy, and_false, if_false, List.reverse_cons, List.append_assoc,
        List.singleton_append, Bool.false_eq_true, List.cons_append, List.nil_append]

/-- The outer loop, with `pre.reverse` sorted so far and `rest` to go, inserts
the elements of `rest` one after the other. -/
theorem insertionOuter_ofEntries (pre rest : List (Entry N)) :
    insertionOuter 0 pre.length rest.length (ofEntries (pre.reverse ++ rest)) =
      ofEntries (rest.foldl (fun acc x => insertRev x acc) pre).reverse := by
  induction rest generalizing pre with
  | nil => simp [insertionOuter]
  | cons x rest ih =>
    simp only [List.length_cons, insertionOuter, insertionInner_ofEntries, List.foldl_cons]
    have hlen : (insertRev x pre).length = pre.length + 1 := by
      clear ih
      induction pre with
      | nil => rfl
      | cons y ys ihp =>
        unfold insertRev
        split <;> simp [ihp]
    rw [← hlen]
    exact ih (insertRev x pre)

/-- The method `Sort` on entries inserts the entries, one after the other,
into the sorted list built so far. -/
theorem sort_ofEntries (l : List (Entry N)) :
    (ofEntries l).Sort = ofEntries (l.foldl (fun acc x => insertRev x acc) []).reverse := by
  unfold SortableTransactions.Sort insertionSort SortableTransactions.Len
  cases l with
  | nil => simp [insertionOuter, ofEntries]
  | cons x rest =>
    have := insertionOuter_ofEntries [x] rest
    simpa [ofEntries, insertRev] using this

/-! ### The order of `Less` -/

/-- The call `bytes.Compare(a, b) < 0` says that `a` comes strictly before
`b` in the lexicographic order of byte strings. -/
theorem bytesCompare_neg_iff (a b : List Byte) :
    bytesCompare a b < 0 ↔ List.Lex (· < ·) a b := by
  induction a generalizing b with
  | nil =>
    cases b with
    | nil => simp [bytesCompare, List.Lex.not_nil_right]
    | cons y ys => simp [bytesCompare, List.Lex.nil]
  | cons x xs ih =>
    cases b with
    | nil => simp [bytesCompare, List.Lex.not_nil_right]
    | cons y ys =>
      unfold bytesCompare
      by_cases h1 : x < y
      · simp [h1, List.Lex.rel h1]
      · by_cases h2 : y < x
        · simp only [h1, h2, if_false, if_true]
          constructor
          · intro h; omega
          · intro h
            cases h with
            | cons h' => exact absurd h2 (lt_irrefl _)
            | rel h' => exact absurd h' h1
        · have hxy : x = y := le_antisymm (not_lt.1 h2) (not_lt.1 h1)
          subst hxy
          simp only [h1, if_false, ih, List.Lex.cons_iff]

/-- The relation `Less` on entries, spelled out: a larger fee, or the same
fee and a hash that is lexicographically smaller. -/
theorem entryLess_iff (x y : Entry N) :
    entryLess x y = true ↔
      y.2.1 < x.2.1 ∨ (x.2.1 = y.2.1 ∧ List.Lex (· < ·) x.2.2.bytes y.2.2.bytes) := by
  unfold entryLess
  by_cases h : x.2.1 = y.2.1
  · simp [h, bytesCompare_neg_iff]
  · simp [h]

theorem entryLess_asymm (x y : Entry N) (h : entryLess x y = true) :
    ¬ entryLess y x = true := by
  rw [entryLess_iff] at h ⊢
  rintro (h2 | ⟨h2, h3⟩)
  · rcases h with h1 | ⟨h1, _⟩
    · exact lt_asymm h1 h2
    · rw [h1] at h2; exact lt_irrefl _ h2
  · rcases h with h1 | ⟨_, h4⟩
    · rw [h2] at h1; exact lt_irrefl _ h1
    · exact (List.Lex.isAsymm (fun a b : Byte => a < b)).asymm _ _ h3 h4

theorem entryLess_conn (x y z : Entry N) (h : entryLess x z = true) :
    entryLess x y = true ∨ entryLess y z = true := by
  simp only [entryLess_iff] at h ⊢
  rcases lt_trichotomy x.2.1 y.2.1 with hxy | hxy | hxy
  · right
    rcases h with h | ⟨h, _⟩
    · exact Or.inl (lt_trans h hxy)
    · exact Or.inl (h ▸ hxy)
  · rcases h with h | ⟨h, hl⟩
    · exact Or.inr (Or.inl (hxy ▸ h))
    · rcases (List.Lex.isOrderConnected (fun a b : Byte => a < b)).conn _ y.2.2.bytes _ hl with
        h' | h'
      · exact Or.inl (Or.inr ⟨hxy, h'⟩)
      · exact Or.inr (Or.inr ⟨hxy.symm.trans h, h'⟩)
  · exact Or.inl (Or.inl hxy)

theorem entryLess_total (x y : Entry N) (h : ¬ entryLess y x = true) (hne : x.2.2 ≠ y.2.2) :
    entryLess x y = true := by
  simp only [entryLess_iff] at h ⊢
  push_neg at h
  rcases lt_trichotomy x.2.1 y.2.1 with hxy | hxy | hxy
  · exact absurd hxy (not_lt.2 h.1)
  · rcases (List.Lex.isTrichotomous (fun a b : Byte => a < b)).trichotomous
        x.2.2.bytes y.2.2.bytes with h' | h' | h'
    · exact Or.inr ⟨hxy, h'⟩
    · exfalso
      apply hne
      cases hx : x.2.2
      cases hy : y.2.2
      simp only [hx, hy] at h'
      subst h'
      rfl
    · exact absurd h' (h.2 hxy.symm)
  · exact Or.inl hxy

/-! ### Insertion keeps the entries and sorts them -/

theorem insertRev_perm (x : Entry N) (l : List (Entry N)) : (insertRev x l).Perm (x :: l) := by
  induction l with
  | nil => exact List.Perm.refl _
  | cons y ys ih =>
    unfold insertRev
    split
    · exact ((ih.cons y).trans (List.Perm.swap x y ys))
    · exact List.Perm.refl _

theorem foldl_insertRev_perm (l acc : List (Entry N)) :
    (l.foldl (fun acc x => insertRev x acc) acc).Perm (acc ++ l) := by
  induction l generalizing acc with
  | nil => simp
  | cons x xs ih =>
    simp only [List.foldl_cons]
    refine (ih (insertRev x acc)).trans ?_
    refine ((insertRev_perm x acc).append_right xs).trans ?_
    simpa using (@List.perm_middle _ x acc xs).symm

theorem insertRev_pairwise (x : Entry N) (l : List (Entry N))
    (h : l.Pairwise fun a b => ¬ entryLess a b = true) :
    (insertRev x l).Pairwise fun a b => ¬ entryLess a b = true := by
  induction l with
  | nil => simp [insertRev]
  | cons y ys ih =>
    rw [List.pairwise_cons] at h
    unfold insertRev
    split
    · rename_i hxy
      rw [List.pairwise_cons]
      refine ⟨fun z hz => ?_, ih h.2⟩
      rcases List.mem_cons.1 ((insertRev_perm x ys).subset hz) with hz' | hz'
      · subst hz'; exact entryLess_asymm _ _ hxy
      · exact h.1 z hz'
    · rename_i hxy
      rw [List.pairwise_cons]
      refine ⟨fun z hz => ?_, List.pairwise_cons.2 h⟩
      rcases List.mem_cons.1 hz with hz' | hz'
      · subst hz'; exact hxy
      · intro hxz
        rcases entryLess_conn x y z hxz with h' | h'
        · exact hxy h'
        · exact h.1 z hz' h'

theorem foldl_insertRev_pairwise (l acc : List (Entry N))
    (h : acc.Pairwise fun a b => ¬ entryLess a b = true) :
    (l.foldl (fun acc x => insertRev x acc) acc).Pairwise fun a b => ¬ entryLess a b = true := by
  induction l generalizing acc with
  | nil => simpa using h
  | cons x xs ih => exact ih _ (insertRev_pairwise x acc h)

/-- The entries after `Sort`: a rearrangement of the entries before, in which
no entry is `Less` than an earlier one. -/
theorem sort_ofEntries_spec (l : List (Entry N)) :
    ∃ r : List (Entry N), (ofEntries l).Sort = ofEntries r ∧ r.Perm l ∧
      r.Pairwise fun a b => ¬ entryLess b a = true := by
  refine ⟨(l.foldl (fun acc x => insertRev x acc) []).reverse, sort_ofEntries l, ?_, ?_⟩
  · exact (List.reverse_perm _).trans (by simpa using foldl_insertRev_perm l [])
  · rw [List.pairwise_reverse]
    exact foldl_insertRev_pairwise l [] List.Pairwise.nil

/-! ### `newSortableTransactions` and `SortTransactions` -/

/-- The encoding of a transaction has at least the 32 bytes of the header
hash and the three 4-byte length prefixes. -/
theorem size_ge (t : Transaction N) : 44 ≤ t.Size := by
  unfold Transaction.Size Transaction.Serialize encodeTransaction encodeHeader encodeInputs
    encodeOutputs encodeSeq
  simp only [List.length_append, encodeFixed_length, leBytes_length]
  omega

theorem newSortableLoop_ofEntries (c : Cipher N) (feeCalc : FeeCalculator N)
    (txns : Transactions N) (acc : List (Entry N)) :
    newSortableLoop c feeCalc txns (ofEntries acc) =
      Result.ok (ofEntries (acc ++ entriesOf c feeCalc txns)) := by
  induction txns generalizing acc with
  | nil => simp [newSortableLoop, entriesOf]
  | cons t rest ih =>
    unfold newSortableLoop
    cases hf : feeCalc t with
    | error e =>
      simp only [entriesOf, List.filterMap_cons, hf]
      exact ih acc
    | ok fee =>
      have hsz : t.Size ≠ 0 := by have := size_ge t; omega
      have hsz' : t.Serialize.length ≠ 0 := hsz
      simp only [Transaction.SizeHash, hsz', if_false]
      have hacc : (⟨(ofEntries acc).Txns ++ [t],
          (ofEntries acc).Fees ++ [feePriority fee t.Serialize.length],
          (ofEntries acc).Hashes ++ [c.SumDoubleSHA256 t.Serialize]⟩ : SortableTransactions N) =
          ofEntries (acc ++ [(t, feePriority fee t.Size, t.Hash c)]) := by
        simp [ofEntries, Transaction.Size, Transaction.Hash]
      rw [hacc, ih]
      simp [entriesOf, hf]

theorem newSortableTransactions_eq (c : Cipher N) (txns : Transactions N)
    (feeCalc : FeeCalculator N) :
    newSortableTransactions c txns feeCalc = Result.ok (ofEntries (entriesOf c feeCalc txns)) := by
  have := newSortableLoop_ofEntries c feeCalc txns []
  simpa [newSortableTransactions, ofEntries] using this

theorem entriesOf_map_fst (c : Cipher N) (feeCalc : FeeCalculator N) (txns : Transactions N) :
    (entriesOf c feeCalc txns).map (·.1) = txns.filter (feeOk feeCalc) := by
  induction txns with
  | nil => rfl
  | cons t rest ih =>
    cases hf : feeCalc t with
    | error e => simpa [entriesOf, feeOk, hf] using ih
    | ok fee => simpa [entriesOf, feeOk, hf] using ih

theorem mem_entriesOf (c : Cipher N) (feeCalc : FeeCalculator N) (txns : Transactions N)
    (e : Entry N) (h : e ∈ entriesOf c feeCalc txns) :
    e.1 ∈ txns ∧ priorityOf feeCalc e.1 = some e.2.1 ∧ e.2.2 = e.1.Hash c := by
  unfold entriesOf at h
  rw [List.mem_filterMap] at h
  obtain ⟨t, ht, hte⟩ := h
  cases hf : feeCalc t with
  | error err => simp [hf] at hte
  | ok fee =>
    simp only [hf, Option.some.injEq] at hte
    subst hte
    exact ⟨ht, by simp [priorityOf, hf], rfl⟩

/-- The result of `SortTransactions`, through the entries that are sorted. -/
theorem sortTransactions_eq (c : Cipher N) (txns : Transactions N) (feeCalc : FeeCalculator N) :
    ∃ r : List (Entry N), SortTransactions c txns feeCalc = Result.ok (r.map (·.1)) ∧
      r.Perm (entriesOf c feeCalc txns) ∧ r.Pairwise fun a b => ¬ entryLess b a = true := by
  obtain ⟨r, hr, hp, hs⟩ := sort_ofEntries_spec (entriesOf c feeCalc txns)
  refine ⟨r, ?_, hp, hs⟩
  unfold SortTransactions
  rw [newSortableTransactions_eq]
  show Result.ok (ofEntries (entriesOf c feeCalc txns)).Sort.Txns = _
  rw [hr]
  rfl

/-- C3: for a fee calculator and a list of transactions with pairwise
distinct outer hashes, `SortTransactions` returns a list `s` in which, for all
positions `i < j`, either the fee priority of `s[i]` is greater than that of
`s[j]`, or the two are equal and the outer hash of `s[i]` comes strictly
before that of `s[j]` in the lexicographic order of bytes. -/
theorem sortTransactions_ordered (c : Cipher N) (txns : Transactions N)
    (feeCalc : FeeCalculator N) (hd : (txns.map fun t => t.Hash c).Nodup) :
    ∃ s, SortTransactions c txns feeCalc = Result.ok s ∧
      ∀ (i j : Nat) (hij : i < j) (hj : j < s.length),
        ∃ pi pj : Uint64,
          priorityOf feeCalc (s.get ⟨i, lt_trans hij hj⟩) = some pi ∧
          priorityOf feeCalc (s.get ⟨j, hj⟩) = some pj ∧
          (pi > pj ∨ (pi = pj ∧
            List.Lex (· < ·) ((s.get ⟨i, lt_trans hij hj⟩).Hash c).bytes
              ((s.get ⟨j, hj⟩).Hash c).bytes)) := by
  obtain ⟨r, hr, hp, hs⟩ := sortTransactions_eq c txns feeCalc
  refine ⟨r.map (·.1), hr, ?_⟩
  -- the entries have pairwise distinct hashes, before and after sorting
  have hne0 : (entriesOf c feeCalc txns).Pairwise fun a b => a.2.2 ≠ b.2.2 := by
    unfold entriesOf
    rw [List.pairwise_filterMap]
    refine (List.pairwise_map.1 hd).imp ?_
    intro t t' htt b hb b' hb'
    cases hf : feeCalc t with
    | error err => simp [hf] at hb
    | ok fee =>
      cases hf' : feeCalc t' with
      | error err => simp [hf'] at hb'
      | ok fee' =>
        simp only [hf, hf', Option.mem_def, Option.some.injEq] at hb hb'
        subst hb; subst hb'
        exact htt
  have hne : r.Pairwise fun a b => a.2.2 ≠ b.2.2 :=
    (hp.pairwise_iff (fun h => Ne.symm h)).2 hne0
  have hlt : r.Pairwise fun a b => entryLess a b = true :=
    List.Pairwise.imp₂ (fun a b h1 h2 => entryLess_total a b h1 h2) hs hne
  rw [List.pairwise_iff_getElem] at hlt
  intro i j hij hj
  have hj' : j < r.length := by simpa using hj
  have hi' : i < r.length := lt_trans hij hj'
  have hmi := mem_entriesOf c feeCalc txns r[i] (hp.subset (List.getElem_mem hi'))
  have hmj := mem_entriesOf c feeCalc txns r[j] (hp.subset (List.getElem_mem hj'))
  have hl := (entryLess_iff _ _).1 (hlt i j hi' hj' hij)
  refine ⟨r[i].2.1, r[j].2.1, ?_, ?_, ?_⟩
  · simpa using hmi.2.1
  · simpa using hmj.2.1
  · simp only [List.get_eq_getElem, List.getElem_map, ← hmi.2.2, ← hmj.2.2]
    exact hl

set_option maxRecDepth 100000 in
/-- Witness of C3: the four sample transactions, of which `sampleFee` prices
three, two of them with the same priority. -/
theorem sortTransactions_ordered_witness :
    ∃ s, SortTransactions sampleCipher sampleTxns sampleFee = Result.ok s ∧
      ∀ (i j : Nat) (hij : i < j) (hj : j < s.length),
        ∃ pi pj : Uint64,
          priorityOf sampleFee (s.get ⟨i, lt_trans hij hj⟩) = some pi ∧
          priorityOf sampleFee (s.get ⟨j, hj⟩) = some pj ∧
          (pi > pj ∨ (pi = pj ∧
            List.Lex (· < ·) ((s.get ⟨i, lt_trans hij hj⟩).Hash sampleCipher).bytes
              ((s.get ⟨j, hj⟩).Hash sampleCipher).bytes)) :=
  sortTransactions_ordered sampleCipher sampleTxns sampleFee (by decide)

/-- C10: `SortTransactions` returns a permutation of the sub-list of the
transactions for which the fee calculator returns no error: its length is the
number of those transactions, and a transaction whose fee computation fails
is not in the result. -/
theorem sortTransactions_perm (c : Cipher N) (txns : Transactions N)
    (feeCalc : FeeCalculator N) :
    ∃ s, SortTransactions c txns feeCalc = Result.ok s ∧
      s.Perm (txns.filter (feeOk feeCalc)) ∧
      s.length = txns.countP (feeOk feeCalc) ∧
      ∀ t, feeOk feeCalc t = false → t ∉ s := by
  obtain ⟨r, hr, hp, _⟩ := sortTransactions_eq c txns feeCalc
  have hperm : (r.map (·.1)).Perm (txns.filter (feeOk feeCalc)) := by
    rw [← entriesOf_map_fst c]
    exact hp.map _
  refine ⟨r.map (·.1), hr, hperm, ?_, ?_⟩
  · rw [hperm.length_eq, List.countP_eq_length_filter]
  · intro t ht hmem
    have := (List.mem_filter.1 (hperm.subset hmem)).2
    rw [ht] at this
    cases this

/-! ### The builder: `UpdateHeader` and `PushInput` -/

/-- C18: `UpdateHeader` sets `Head.Hash` to
`SumSHA256(encode(In) ++ encode(Out))`, leaves `Head.Sigs`, `In` and `Out` as
they are, and a second call yields the transaction of the first call. -/
theorem updateHeader_idempotent (c : Cipher N) (tx : Transaction N) :
    (tx.UpdateHeader c).Head.Hash =
        c.SumSHA256 (encodeInputs tx.In ++ encodeOutputs tx.Out) ∧
      (tx.UpdateHeader c).Head.Sigs = tx.Head.Sigs ∧
      (tx.UpdateHeader c).In = tx.In ∧
      (tx.UpdateHeader c).Out = tx.Out ∧
      (tx.UpdateHeader c).UpdateHeader c = tx.UpdateHeader c := by
  refine ⟨rfl, rfl, rfl, rfl, ?_⟩
  simp only [Transaction.UpdateHeader, Transaction.hashInner]

/-- C12: `PushInput(h)` panics if and only if `len(In) >= 2 ^ 16 - 1` before
the call. Otherwise it returns the previous `len(In)` as index, not
truncated by the conversion to `uint16`, and the transaction afterwards has
`h` appended to `In` (at the returned index, the earlier inputs in place) and
the same `Out` and `Head`. -/
theorem pushInput_spec (tx : Transaction N) (h : SHA256) :
    ((∃ msg, tx.PushInput h = Result.panic msg) ↔ tx.In.length ≥ 2 ^ 16 - 1) ∧
      (tx.In.length < 2 ^ 16 - 1 →
        ∃ (tx1 : Transaction N) (idx : Nat), tx.PushInput h = Result.ok (tx1, idx) ∧
          idx = tx.In.length ∧ tx1.In = tx.In ++ [h] ∧ tx1.In[idx]? = some h ∧
          (∀ k, k < tx.In.length → tx1.In[k]? = tx.In[k]?) ∧
          tx1.Out = tx.Out ∧ tx1.Head = tx.Head) := by
  have hmax : (2 : Nat) ^ 16 - 1 = MaxUint16 := by decide
  rw [hmax]
  constructor
  · unfold Transaction.PushInput
    by_cases hge : tx.In.length ≥ MaxUint16
    · simp [hge]
    · simp [hge]
  · intro hlt
    refine ⟨{ tx with In := tx.In ++ [h] }, tx.In.length, ?_, rfl, rfl, ?_, ?_, rfl, rfl⟩
    · unfold Transaction.PushInput
      have hge : ¬ tx.In.length ≥ MaxUint16 := by omega
      have hlt2 : tx.In.length < 65536 := by unfold MaxUint16 at hlt; omega
      simp [hge, hlt2]
    · simp
    · intro k hk
      simp [List.getElem?_append_left hk]

/-! ### Sizes never vanish -/

/-- C20: the size of every transaction, the empty one included, is at least
44 bytes (the header hash and three length prefixes), so the division by
`uint64(size)` in `newSortableTransactions` never panics: the function
returns for every list of transactions and every fee calculator. -/
theorem newSortableTransactions_no_zero_division (c : Cipher N) :
    (∀ t : Transaction N, 44 ≤ t.Size) ∧
      (∀ hash : SHA256, (⟨⟨hash, []⟩, [], []⟩ : Transaction N).Size = 44) ∧
      (∀ (t : Transaction N), (t.SizeHash c).1 ≠ 0) ∧
      ∀ (txns : Transactions N) (feeCalc : FeeCalculator N),
        ∃ s, newSortableTransactions c txns feeCalc = Result.ok s := by
  refine ⟨size_ge, fun hash => ?_, fun t => ?_, fun txns feeCalc => ?_⟩
  · simp [Transaction.Size, Transaction.Serialize, encodeTransaction, encodeHeader, encodeInputs,
      encodeOutputs, encodeSeq, encodeFixed_length, leBytes_length]
  · have := size_ge t
    simp only [Transaction.SizeHash, ne_eq]
    unfold Transaction.Size at this
    omega
  · exact ⟨_, newSortableTransactions_eq c txns feeCalc⟩

/-! ### Decoding failures -/

theorem leBytes_leValue (l : List Byte) : leBytes l.length (leValue l) = l := by
  induction l with
  | nil => rfl
  | cons x xs ih =>
    have hx := x.isLt
    simp only [List.length_cons, leBytes, leValue]
    have h1 : (x.val + 256 * leValue xs) % 256 = x.val := by omega
    have h2 : (x.val + 256 * leValue xs) / 256 = leValue xs := by omega
    simp only [h1, h2, ih]

theorem leValue_lt (l : List Byte) : leValue l < 256 ^ l.length := by
  induction l with
  | nil => simp [leValue]
  | cons x xs ih =>
    have hx := x.isLt
    simp only [List.length_cons, leValue, pow_succ]
    omega

theorem decodeFixed_inv {n : Nat} (b r : List Byte) (x : FixedBytes n)
    (h : decodeFixed n b = some (x, r)) : encodeFixed x ++ r = b := by
  unfold decodeFixed at h
  split at h
  · simp only [Option.some.injEq, Prod.mk.injEq] at h
    obtain ⟨hx, hr⟩ := h
    subst hx; subst hr
    exact List.take_append_drop n b
  · cases h

theorem decodeLE_inv (k : Nat) (b r : List Byte) (v : Nat)
    (h : decodeLE k b = some (v, r)) : leBytes k v ++ r = b ∧ v < 256 ^ k := by
  unfold decodeLE at h
  split at h
  · rename_i hk
    simp only [Option.some.injEq, Prod.mk.injEq] at h
    obtain ⟨hv, hr⟩ := h
    subst hv; subst hr
    have hl : (b.take k).length = k := by simp [hk]
    have h1 := leBytes_leValue (b.take k)
    have h2 := leValue_lt (b.take k)
    rw [hl] at h1 h2
    exact ⟨by rw [h1]; exact List.take_append_drop k b, h2⟩
  · cases h

theorem decodeUint64_inv (b r : List Byte) (x : Uint64)
    (h : decodeUint64 b = some (x, r)) : leBytes 8 x.val ++ r = b := by
  unfold decodeUint64 at h
  cases hd : decodeLE 8 b with
  | none => simp [hd] at h
  | some p =>
    obtain ⟨v, rest⟩ := p
    simp only [hd, Option.some.injEq, Prod.mk.injEq] at h
    obtain ⟨hx, hr⟩ := h
    obtain ⟨h1, h2⟩ := decodeLE_inv 8 b rest v hd
    subst hx; subst hr
    have : v % 2 ^ 64 = v := Nat.mod_eq_of_lt (by norm_num at h2 ⊢; exact h2)
    simp only [this]
    exact h1

theorem decodeTxOut_inv (b r : List Byte) (o : TransactionOutput N)
    (h : decodeTxOut N b = some (o, r)) : encodeTxOut o ++ r = b := by
  unfold decodeTxOut at h
  cases h1 : decodeFixed N b with
  | none => simp [h1] at h
  | some p1 =>
    obtain ⟨a, r1⟩ := p1
    simp only [h1] at h
    cases h2 : decodeUint64 r1 with
    | none => simp [h2] at h
    | some p2 =>
      obtain ⟨cn, r2⟩ := p2
      simp only [h2] at h
      cases h3 : decodeUint64 r2 with
      | none => simp [h3] at h
      | some p3 =>
        obtain ⟨hr, r3⟩ := p3
        simp only [h3, Option.some.injEq, Prod.mk.injEq] at h
        obtain ⟨ho, hrest⟩ := h
        subst ho; subst hrest
        have e1 := decodeFixed_inv b r1 a h1
        have e2 := decodeUint64_inv r1 r2 cn h2
        have e3 := decodeUint64_inv r2 r3 hr h3
        simp only [encodeTxOut, List.append_assoc]
        rw [e3, e2, e1]

theorem decodeElems_inv {α : Type} (enc : α → List Byte)
    (dec : List Byte → Option (α × List Byte))
    (hinv : ∀ b r x, dec b = some (x, r) → enc x ++ r = b) (n : Nat) (b r : List Byte)
    (xs : List α) (h : decodeElems dec n b = some (xs, r)) :
    (xs.map enc).flatten ++ r = b ∧ xs.length = n := by
  induction n generalizing b xs with
  | zero =>
    simp only [decodeElems, Option.some.injEq, Prod.mk.injEq] at h
    obtain ⟨h1, h2⟩ := h
    subst h1; subst h2
    simp
  | succ n ih =>
    unfold decodeElems at h
    cases h1 : dec b with
    | none => simp [h1] at h
    | some p1 =>
      obtain ⟨x, r1⟩ := p1
      simp only [h1] at h
      cases h2 : decodeElems dec n r1 with
      | none => simp [h2] at h
      | some p2 =>
        obtain ⟨ys, r2⟩ := p2
        simp only [h2, Option.some.injEq, Prod.mk.injEq] at h
        obtain ⟨hxs, hr⟩ := h
        subst hxs; subst hr
        obtain ⟨e1, e2⟩ := ih r1 ys h2
        have e0 := hinv b r1 x h1
        simp only [List.map_cons, List.flatten_cons, List.append_assoc, List.length_cons]
        rw [e1, e0, e2]
        exact ⟨rfl, rfl⟩

theorem decodeSeq_inv {α : Type} (enc : α → List Byte)
    (dec : List Byte → Option (α × List Byte))
    (hinv : ∀ b r x, dec b = some (x, r) → enc x ++ r = b) (b r : List Byte)
    (xs : List α) (h : decodeSeq dec b = some (xs, r)) : encodeSeq enc xs ++ r = b := by
  unfold decodeSeq at h
  cases h1 : decodeLE 4 b with
  | none => simp [h1] at h
  | some p1 =>
    obtain ⟨n, r1⟩ := p1
    simp only [h1] at h
    split at h
    · obtain ⟨e1, e2⟩ := decodeElems_inv enc dec hinv n r1 r xs h
      obtain ⟨e3, _⟩ := decodeLE_inv 4 b r1 n h1
      simp only [encodeSeq, List.append_assoc]
      rw [e1, e2, e3]
    · cases h

/-- A byte string that the decoder accepts holds at least the header hash
and the three length prefixes. -/
theorem DeserializeRaw_length (b : List Byte) (t : Transaction N)
    (h : DeserializeRaw N b = some t) : 44 ≤ b.length := by
  unfold DeserializeRaw at h
  cases h1 : decodeFixed 32 b with
  | none => simp [h1] at h
  | some p1 =>
    obtain ⟨hash, r1⟩ := p1
    simp only [h1] at h
    cases h2 : decodeSeq (decodeFixed 65) r1 with
    | none => simp [h2] at h
    | some p2 =>
      obtain ⟨sigs, r2⟩ := p2
      simp only [h2] at h
      cases h3 : decodeSeq (decodeFixed 32) r2 with
      | none => simp [h3] at h
      | some p3 =>
        obtain ⟨ins, r3⟩ := p3
        simp only [h3] at h
        cases h4 : decodeSeq (decodeTxOut N) r3 with
        | none => simp [h4] at h
        | some p4 =>
          obtain ⟨outs, r4⟩ := p4
          have e1 := congrArg List.length (decodeFixed_inv b r1 hash h1)
          have e2 := congrArg List.length (decodeSeq_inv encodeFixed (decodeFixed 65)
            (fun b r x => decodeFixed_inv b r x) r1 r2 sigs h2)
          have e3 := congrArg List.length (decodeSeq_inv encodeFixed (decodeFixed 32)
            (fun b r x => decodeFixed_inv b r x) r2 r3 ins h3)
          have e4 := congrArg List.length (decodeSeq_inv encodeTxOut (decodeTxOut N)
            (fun b r x => decodeTxOut_inv b r x) r3 r4 outs h4)
          simp only [encodeSeq, List.length_append, encodeFixed_length, leBytes_length]
            at e1 e2 e3 e4
          omega

/-- A length prefix that exceeds the bytes behind it makes the decoding of a
sequence fail. -/
theorem decodeSeq_prefix_too_large {α : Type} (dec : List Byte → Option (α × List Byte))
    (n : Nat) (rest : List Byte) (hn : n < 2 ^ 32) (hlt : rest.length < n) :
    decodeSeq dec (leBytes 4 n ++ rest) = none := by
  unfold decodeSeq
  rw [decodeLE_append]
  have hm : n % 256 ^ 4 = n := Nat.mod_eq_of_lt (by norm_num at hn ⊢; exact hn)
  simp only [hm]
  rw [if_neg (by omega)]

/-- Counterexample to C14 as stated: on the empty byte string
`TransactionDeserialize` panics. -/
theorem transactionDeserialize_counterexample :
    TransactionDeserialize 1 [] = Result.panic "Failed to deserialize transaction" := by
  decide

/-- C14 (amended): for every byte string `b`, `TransactionDeserialize(b)`
either returns a transaction or panics with "Failed to deserialize
transaction", which it does exactly when the decoder reports an error; no
error is returned to the caller. The decoder reports an error, and the call
panics, when the buffer is too short (fewer than 44 bytes) and when one of
the three length prefixes exceeds the bytes that remain behind it. -/
theorem transactionDeserialize_ok_or_panic (b : List Byte) :
    ((∃ t : Transaction N, DeserializeRaw N b = some t ∧
          TransactionDeserialize N b = Result.ok t) ∨
        (DeserializeRaw N b = none ∧
          TransactionDeserialize N b = Result.panic "Failed to deserialize transaction")) ∧
      (b.length < 44 →
        TransactionDeserialize N b = Result.panic "Failed to deserialize transaction") ∧
      (∀ (hash : SHA256) (n : Nat) (rest : List Byte), n < 2 ^ 32 → rest.length < n →
        TransactionDeserialize N (encodeFixed hash ++ (leBytes 4 n ++ rest)) =
          Result.panic "Failed to deserialize transaction") ∧
      (∀ (head : TransactionHeader) (n : Nat) (rest : List Byte), head.Sigs.length < 2 ^ 32 →
        n < 2 ^ 32 → rest.length < n →
        TransactionDeserialize N (encodeHeader head ++ (leBytes 4 n ++ rest)) =
          Result.panic "Failed to deserialize transaction") ∧
      (∀ (head : TransactionHeader) (ins : List SHA256) (n : Nat) (rest : List Byte),
        head.Sigs.length < 2 ^ 32 → ins.length < 2 ^ 32 → n < 2 ^ 32 → rest.length < n →
        TransactionDeserialize N
            (encodeHeader head ++ (encodeInputs ins ++ (leBytes 4 n ++ rest))) =
          Result.panic "Failed to deserialize transaction") := by
  refine ⟨?_, fun hlt => ?_, fun hash n rest hn hlt => ?_, fun head n rest hs hn hlt => ?_,
    fun head ins n rest hs hi hn hlt => ?_⟩
  · unfold TransactionDeserialize
    cases h : DeserializeRaw N b with
    | some t => exact Or.inl ⟨t, rfl, rfl⟩
    | none => exact Or.inr ⟨rfl, rfl⟩
  · unfold TransactionDeserialize
    cases h : DeserializeRaw N b with
    | some t =>
      have := DeserializeRaw_length b t h
      omega
    | none => rfl
  · unfold TransactionDeserialize DeserializeRaw
    simp only [decodeFixed_append, decodeSeq_prefix_too_large _ n rest hn hlt]
  · unfold TransactionDeserialize DeserializeRaw encodeHeader
    simp only [List.append_assoc, decodeFixed_append]
    rw [decodeSeq_append encodeFixed (decodeFixed 65) decodeFixed_append
      (fun x => by rw [encodeFixed_length]; omega) _ hs]
    simp only [decodeSeq_prefix_too_large _ n rest hn hlt]
  · unfold TransactionDeserialize DeserializeRaw encodeHeader encodeInputs
    simp only [List.append_assoc, decodeFixed_append]
    rw [decodeSeq_append encodeFixed (decodeFixed 65) decodeFixed_append
      (fun x => by rw [encodeFixed_length]; omega) _ hs]
    simp only []
    rw [decodeSeq_append encodeFixed (decodeFixed 32) decodeFixed_append
      (fun x => by rw [encodeFixed_length]; omega) _ hi]
    simp only [decodeSeq_prefix_too_large _ n rest hn hlt]

/-! ### Truncation to a byte budget -/

theorem transactionsSize_append_singleton (l : Transactions N) (t : Transaction N) :
    Transactions.Size (l ++ [t]) = Transactions.Size l + (t.Size : Int) := by
  simp [Transactions.Size, List.foldl_append]

theorem transactionsSize_nil : Transactions.Size ([] : Transactions N) = 0 := rfl

/-- The loop of `TruncateBytesTo`, entered with the prefix `pre` behind it and
`total` the summed size of `pre`, returns a prefix of length `k` that contains
`pre`; its summed size is within the budget when that of `pre` is, and the
next transaction, if there is one, exceeds the budget. -/
theorem truncateLoop_spec (self : Transactions N) (size : Int) (rest pre : Transactions N)
    (hself : self = pre ++ rest) :
    ∃ k, pre.length ≤ k ∧ k ≤ self.length ∧
      truncateLoop self size rest pre.length (Transactions.Size pre) = self.take k ∧
      (Transactions.Size pre ≤ size → Transactions.Size (self.take k) ≤ size) ∧
      (k < self.length → Transactions.Size (self.take (k + 1)) > size) := by
  induction rest generalizing pre with
  | nil =>
    have hs : self = pre := by simpa using hself
    refine ⟨self.length, by simp [hs], le_refl _, ?_, ?_, ?_⟩
    · simp [truncateLoop]
    · intro h; simpa [hs] using h
    · intro h; exact absurd h (lt_irrefl _)
  | cons t rest ih =>
    unfold truncateLoop
    by_cases hgt : Transactions.Size pre + (t.Size : Int) > size
    · simp only [hgt, if_true]
      have htake : self.take pre.length = pre := by rw [hself]; exact List.take_left' rfl
      have htake1 : self.take (pre.length + 1) = pre ++ [t] := by
        rw [hself, show pre ++ t :: rest = (pre ++ [t]) ++ rest by simp]
        exact List.take_left' (by simp)
      refine ⟨pre.length, le_refl _, by simp [hself], rfl, ?_, ?_⟩
      · intro h; rw [htake]; exact h
      · intro _; rw [htake1, transactionsSize_append_singleton]; exact hgt
    · simp only [hgt, if_false]
      have hself1 : self = (pre ++ [t]) ++ rest := by simp [hself]
      obtain ⟨k, hk1, hk2, hk3, hk4, hk5⟩ := ih (pre ++ [t]) hself1
      rw [transactionsSize_append_singleton, List.length_append, List.length_singleton] at hk3
      rw [List.length_append, List.length_singleton] at hk1
      refine ⟨k, by omega, hk2, hk3, fun _ => hk4 ?_, hk5⟩
      rw [transactionsSize_append_singleton]
      omega

/-- Counterexample to C11 as stated: with the budget `-1` the result for the
sample transactions is the empty prefix, whose summed size `0` is above the
budget. -/
theorem truncateBytesTo_counterexample :
    Transactions.TruncateBytesTo sampleTxns (-1) = [] ∧
      ¬ (Transactions.Size (Transactions.TruncateBytesTo sampleTxns (-1)) ≤ -1) := by
  have h : Transactions.TruncateBytesTo sampleTxns (-1) = [] := by
    simp [Transactions.TruncateBytesTo, sampleTxns, truncateLoop]
    omega
  rw [h]
  exact ⟨rfl, by decide⟩

/-- C11 (amended): `txns.TruncateBytesTo(size_cap)` is a prefix of `txns`;
for `size_cap >= 0` its summed size is at most `size_cap`, and for a negative
`size_cap` it is the empty prefix; it is the longest prefix within the
budget: when it is a proper prefix of length `n`, the first `n + 1`
transactions have a summed size greater than `size_cap`. -/
theorem truncateBytesTo_spec (txns : Transactions N) (size_cap : Int) :
    Transactions.TruncateBytesTo txns size_cap <+: txns ∧
      (0 ≤ size_cap →
        Transactions.Size (Transactions.TruncateBytesTo txns size_cap) ≤ size_cap) ∧
      (size_cap < 0 → Transactions.TruncateBytesTo txns size_cap = []) ∧
      ((Transactions.TruncateBytesTo txns size_cap).length < txns.length →
        Transactions.Size
          (txns.take ((Transactions.TruncateBytesTo txns size_cap).length + 1)) > size_cap) := by
  obtain ⟨k, _, hk2, hk3, hk4, hk5⟩ := truncateLoop_spec txns size_cap txns [] (by simp)
  have hr : Transactions.TruncateBytesTo txns size_cap = txns.take k := by
    simpa [Transactions.TruncateBytesTo, transactionsSize_nil] using hk3
  have hlen : (txns.take k).length = k := by simp [hk2]
  rw [hr, hlen]
  refine ⟨List.take_prefix k txns, fun h => hk4 (by simpa [transactionsSize_nil] using h),
    fun hneg => ?_, hk5⟩
  rw [← hr]
  cases txns with
  | nil => rfl
  | cons t rest =>
    have hpos : (0 : Int) ≤ (t.Size : Int) := Int.ofNat_nonneg _
    simp only [Transactions.TruncateBytesTo, truncateLoop]
    rw [if_pos (by omega)]
    rfl

/-! ### Signing -/

/-- A call of `signInput` with an index inside both `In` and `Head.Sigs`, on a
transaction with at most `math.MaxUint16` inputs, stores the signature. -/
theorem signInput_ok (c : Cipher N) (tx : Transaction N) (idx : Nat) (sec : SecKey)
    (h : SHA256) (hmax : tx.In.length ≤ MaxUint16) (hin : idx < tx.In.length)
    (hsig : idx < tx.Head.Sigs.length) :
    tx.signInput c idx sec h =
      Result.ok { tx with Head := { tx.Head with Sigs := tx.Head.Sigs.set idx (c.SignHash h sec) } } := by
  unfold Transaction.signInput
  have h1 : ¬ tx.In.length > MaxUint16 := by omega
  have h2 : tx.In.length % 2 ^ 16 = tx.In.length :=
    Nat.mod_eq_of_lt (by unfold MaxUint16 at hmax; omega)
  have h3 : ¬ idx ≥ tx.In.length := by omega
  have h4 : ¬ idx ≥ tx.Head.Sigs.length := by omega
  simp only [h1, h2, h3, h4, if_false]

/-- The loop of `SignInputs`, with the signatures `done` written and the
keys `rest` to go, fills the remaining positions in order. -/
theorem signInputsLoop_spec (c : Cipher N) (h hd : SHA256) (ins : List SHA256)
    (outs : List (TransactionOutput N)) (rest : List SecKey) (done : List Sig)
    (hlen : done.length + rest.length = ins.length) (hmax : ins.length ≤ MaxUint16) :
    signInputsLoop c h rest done.length
        ⟨⟨hd, done ++ List.replicate rest.length zeroSig⟩, ins, outs⟩ =
      Result.ok ⟨⟨hd, done ++ rest.map (c.SignHash h)⟩, ins, outs⟩ := by
  induction rest generalizing done with
  | nil => simp [signInputsLoop]
  | cons k rest ih =>
    have hlt : done.length < ins.length := by simp at hlen; omega
    have hmod : done.length % 2 ^ 16 = done.length :=
      Nat.mod_eq_of_lt (by unfold MaxUint16 at hmax; omega)
    unfold signInputsLoop
    rw [hmod, signInput_ok c _ done.length k h hmax hlt (by simp)]
    simp only [Result.bind, List.length_cons, List.replicate_succ]
    have hset : (done ++ zeroSig :: List.replicate rest.length zeroSig).set done.length
        (c.SignHash h k) = (done ++ [c.SignHash h k]) ++ List.replicate rest.length zeroSig := by
      simp
    rw [hset]
    have := ih (done ++ [c.SignHash h k]) (by simp at hlen ⊢; omega)
    simp only [List.length_append, List.length_singleton] at this
    rw [this]
    simp

/-- The result of `SignInputs` on an unsigned transaction with one key per
input and at most `math.MaxUint16` inputs. -/
theorem signInputs_eq (c : Cipher N) (tx : Transaction N) (keys : List SecKey)
    (hs : tx.Head.Sigs = []) (hk : keys.length = tx.In.length)
    (hmax : tx.In.length ≤ MaxUint16) :
    tx.SignInputs c keys =
      Result.ok ⟨⟨tx.Head.Hash, keys.map (c.SignHash (tx.hashInner c))⟩, tx.In, tx.Out⟩ := by
  unfold Transaction.SignInputs
  have h1 : ¬ tx.Head.Sigs.length ≠ 0 := by simp [hs]
  have h2 : ¬ keys.length ≠ tx.In.length := by simp [hk]
  simp only [h1, h2, if_false]
  have := signInputsLoop_spec c (tx.hashInner c) tx.Head.Hash tx.In tx.Out keys []
    (by simpa using hk) hmax
  simp only [List.nil_append, List.length_nil] at this
  rw [← hk]
  exact this

/-- With more than `math.MaxUint16` inputs the first call of `signInput`
panics. -/
theorem signInputs_too_large (c : Cipher N) (tx : Transaction N) (keys : List SecKey)
    (hs : tx.Head.Sigs = []) (hk : keys.length = tx.In.length)
    (hbig : tx.In.length > MaxUint16) :
    tx.SignInputs c keys = Result.panic "In too large" := by
  unfold Transaction.SignInputs
  have h1 : ¬ tx.Head.Sigs.length ≠ 0 := by simp [hs]
  have h2 : ¬ keys.length ≠ tx.In.length := by simp [hk]
  simp only [h1, h2, if_false]
  cases keys with
  | nil => simp at hk; omega
  | cons k rest =>
    unfold signInputsLoop Transaction.signInput
    simp only [hbig, if_true, Result.bind]

/-- Counterexample to C13 as stated: an unsigned transaction with 65536
inputs and one key per input, on which `SignInputs` panics. -/
theorem signInputs_counterexample :
    overfullTx.Head.Sigs = [] ∧
      (List.replicate 65536 (FixedBytes.fill 32 0 : SecKey)).length = overfullTx.In.length ∧
      overfullTx.SignInputs constCipher (List.replicate 65536 (FixedBytes.fill 32 0)) =
        Result.panic "In too large" := by
  have hlen : overfullTx.In.length = 65536 := List.length_replicate _ _
  have hk : (List.replicate 65536 (FixedBytes.fill 32 0 : SecKey)).length =
      overfullTx.In.length := by rw [hlen]; exact List.length_replicate _ _
  exact ⟨rfl, hk, signInputs_too_large constCipher overfullTx _ rfl hk
    (by rw [hlen]; decide)⟩

/-- C13 (amended): on a transaction with empty `Head.Sigs`, with one key per
input and at most `math.MaxUint16 = 65535` inputs, `SignInputs(keys)` returns,
and afterwards `len(Head.Sigs) == len(In)`, `Head.Sigs[i]` is
`SignHash(h, keys[i])` for `h = SumSHA256(encode(In) ++ encode(Out))`, and
`In`, `Out` and `Head.Hash` are as before. The call panics when `Head.Sigs`
is not empty, when `len(keys) != len(In)`, and when there are more than 65535
inputs. -/
theorem signInputs_spec (c : Cipher N) (tx : Transaction N) (keys : List SecKey) :
    (tx.Head.Sigs = [] → keys.length = tx.In.length → tx.In.length ≤ 65535 →
        ∃ tx1, tx.SignInputs c keys = Result.ok tx1 ∧
          tx1.Head.Sigs.length = tx.In.length ∧
          (∀ (i : Nat) (hi : i < keys.length),
            tx1.Head.Sigs[i]? =
              some (c.SignHash (c.SumSHA256 (encodeInputs tx.In ++ encodeOutputs tx.Out))
                (keys.get ⟨i, hi⟩))) ∧
          tx1.In = tx.In ∧ tx1.Out = tx.Out ∧ tx1.Head.Hash = tx.Head.Hash) ∧
      (tx.Head.Sigs ≠ [] ∨ keys.length ≠ tx.In.length →
        ∃ msg, tx.SignInputs c keys = Result.panic msg) ∧
      (tx.Head.Sigs = [] → keys.length = tx.In.length → tx.In.length > 65535 →
        tx.SignInputs c keys = Result.panic "In too large") := by
  refine ⟨fun hs hk hmax => ?_, fun hbad => ?_, fun hs hk hbig => ?_⟩
  · refine ⟨_, signInputs_eq c tx keys hs hk hmax, ?_, ?_, rfl, rfl, rfl⟩
    · simp [hk]
    · intro i hi
      simp [Transaction.hashInner, List.getElem?_map, List.getElem?_eq_getElem hi]
  · unfold Transaction.SignInputs
    by_cases h1 : tx.Head.Sigs.length ≠ 0
    · exact ⟨_, by rw [if_pos h1]⟩
    · have h1' : tx.Head.Sigs = [] := List.length_eq_zero.1 (not_not.1 h1)
      have h2 : keys.length ≠ tx.In.length := by
        rcases hbad with hb | hb
        · exact absurd h1' hb
        · exact hb
      exact ⟨_, by rw [if_neg h1, if_pos h2]⟩
  · exact signInputs_too_large c tx keys hs hk hbig

/-- The result of `Verify` is neither "Invalid header hash" nor "Invalid
number of signatures" when the header hash is the inner hash and there is one
signature per input. -/
theorem verify_header_ok (c : Cipher N) (tx : Transaction N) (maxSize : Int)
    (h1 : tx.hashInner c = tx.Head.Hash) (h4 : tx.Head.Sigs.length = tx.In.length) :
    tx.Verify c maxSize ≠ some (Error.New "Invalid header hash") ∧
      tx.Verify c maxSize ≠ some (Error.New "Invalid number of signatures") := by
  rw [verify_unfold]
  simp only [h1, ne_eq, not_true_eq_false, if_false, h4]
  constructor <;>
  · intro hV
    split_ifs at hV
    all_goals first
      | (simp at hV)
      | (rcases verify_tail_eq_some c tx _ hV with ⟨msg, hm⟩ | hm | hm <;> simp at hm)

/-- C19: the inner hash depends on `In` and `Out` only, not on the header. So
for a transaction with empty `Head.Sigs` and one key per input, with fewer
than `2 ^ 16 - 1` inputs, `UpdateHeader()` followed by `SignInputs(keys)` and
the two calls in the opposite order both return, with the same transaction,
in which `Head.Hash` is `SumSHA256(encode(In) ++ encode(Out))` and
`len(Head.Sigs) == len(In)`; `Verify` on it returns neither "Invalid header
hash" nor "Invalid number of signatures". -/
theorem builder_flow (c : Cipher N) (tx : Transaction N) (keys : List SecKey)
    (hs : tx.Head.Sigs = []) (hk : keys.length = tx.In.length)
    (hlt : tx.In.length < 2 ^ 16 - 1) :
    (∀ hd : TransactionHeader,
        ({ tx with Head := hd } : Transaction N).hashInner c = tx.hashInner c) ∧
      ∃ t1 t0, (tx.UpdateHeader c).SignInputs c keys = Result.ok t1 ∧
        tx.SignInputs c keys = Result.ok t0 ∧ t0.UpdateHeader c = t1 ∧
        t1.In = tx.In ∧ t1.Out = tx.Out ∧
        t1.Head.Hash = c.SumSHA256 (encodeInputs t1.In ++ encodeOutputs t1.Out) ∧
        t1.Head.Sigs.length = t1.In.length ∧
        ∀ maxSize : Int,
          t1.Verify c maxSize ≠ some (Error.New "Invalid header hash") ∧
            t1.Verify c maxSize ≠ some (Error.New "Invalid number of signatures") := by
  have hmax : tx.In.length ≤ MaxUint16 := by unfold MaxUint16; omega
  refine ⟨fun hd => rfl, _, _, signInputs_eq c (tx.UpdateHeader c) keys hs hk hmax,
    signInputs_eq c tx keys hs hk hmax, rfl, rfl, rfl, rfl,
    by simp only [List.length_map]; exact hk, fun maxSize => ?_⟩
  exact verify_header_ok c _ maxSize rfl (by simp only [List.length_map]; exact hk)

set_option maxRecDepth 100000 in
/-- Witness of C19: an unsigned sample transaction with two inputs and two
keys. -/
theorem builder_flow_witness :
    ∃ t1, ((⟨⟨FixedBytes.fill 32 0, []⟩, [FixedBytes.fill 32 1, FixedBytes.fill 32 2],
        [sampleOut 7 1000000 0]⟩ : Transaction 1).UpdateHeader sampleCipher).SignInputs
          sampleCipher [FixedBytes.fill 32 5, FixedBytes.fill 32 6] = Result.ok t1 ∧
      t1.Head.Sigs.length = t1.In.length :=
  let ⟨_, t1, _, h1, _, _, _, _, _, h2, _⟩ := builder_flow sampleCipher
    (⟨⟨FixedBytes.fill 32 0, []⟩, [FixedBytes.fill 32 1, FixedBytes.fill 32 2],
      [sampleOut 7 1000000 0]⟩ : Transaction 1)
    [FixedBytes.fill 32 5, FixedBytes.fill 32 6] (by decide) (by decide) (by decide)
  ⟨t1, h1, h2⟩

/-! ### Sorting a sorted list, sorting a permutation -/

/-- Inserting the entries of a sorted list one after the other puts each at
the end of what is already there. -/
theorem foldl_insertRev_sorted (r acc : List (Entry N))
    (hr : r.Pairwise fun a b => ¬ entryLess b a = true)
    (hacc : ∀ x ∈ r, ∀ y ∈ acc, ¬ entryLess x y = true) :
    r.foldl (fun acc x => insertRev x acc) acc = r.reverse ++ acc := by
  induction r generalizing acc with
  | nil => simp
  | cons x xs ih =>
    rw [List.pairwise_cons] at hr
    have hins : insertRev x acc = x :: acc := by
      cases acc with
      | nil => rfl
      | cons y ys =>
        have := hacc x (List.mem_cons_self _ _) y (List.mem_cons_self _ _)
        simp [insertRev, this]
    simp only [List.foldl_cons, hins, List.reverse_cons, List.append_assoc, List.singleton_append]
    apply ih _ hr.2
    intro z hz y hy
    rcases List.mem_cons.1 hy with hy' | hy'
    · subst hy'; exact hr.1 z hz
    · exact hacc z (List.mem_cons_of_mem _ hz) y hy'

/-- On entries that are already in order `Sort` changes nothing. -/
theorem sort_ofEntries_sorted (r : List (Entry N))
    (hr : r.Pairwise fun a b => ¬ entryLess b a = true) :
    (ofEntries r).Sort = ofEntries r := by
  rw [sort_ofEntries, foldl_insertRev_sorted r [] hr (fun _ _ y hy => by cases hy)]
  simp

/-- The entries written for the transactions of a list of entries that
`newSortableTransactions` wrote before are those entries. -/
theorem entriesOf_map_fst_self (c : Cipher N) (feeCalc : FeeCalculator N)
    (r : List (Entry N))
    (hr : ∀ e ∈ r, priorityOf feeCalc e.1 = some e.2.1 ∧ e.2.2 = e.1.Hash c) :
    entriesOf c feeCalc (r.map (·.1)) = r := by
  induction r with
  | nil => rfl
  | cons e rest ih =>
    obtain ⟨hp, hh⟩ := hr e (List.mem_cons_self _ _)
    have ih' := ih (fun e' he' => hr e' (List.mem_cons_of_mem _ he'))
    unfold entriesOf at ih' ⊢
    unfold priorityOf at hp
    cases hf : feeCalc e.1 with
    | error err => simp [hf] at hp
    | ok fee =>
      simp only [hf, Option.some.injEq] at hp
      simp only [List.map_cons, List.filterMap_cons, hf, ih']
      rw [hp, ← hh]

/-- Two lists in order with the same elements are equal when the order
relates no two different elements in both directions. -/
theorem eq_of_perm_of_pairwise {α : Type} (R : α → α → Prop) (l1 l2 : List α)
    (hp : l1.Perm l2) (h1 : l1.Pairwise R) (h2 : l2.Pairwise R)
    (anti : ∀ a ∈ l1, ∀ b ∈ l1, R a b → R b a → a = b) : l1 = l2 := by
  induction l1 generalizing l2 with
  | nil => exact (List.perm_nil.1 hp.symm).symm
  | cons a l1 ih =>
    cases l2 with
    | nil => exact absurd hp.length_eq (by simp)
    | cons b l2 =>
      rw [List.pairwise_cons] at h1 h2
      have hab : a = b := by
        by_contra hne
        have ha : a ∈ l2 := by
          rcases List.mem_cons.1 (hp.subset (List.mem_cons_self a l1)) with h | h
          · exact absurd h hne
          · exact h
        have hb : b ∈ l1 := by
          rcases List.mem_cons.1 (hp.symm.subset (List.mem_cons_self b l2)) with h | h
          · exact absurd h.symm hne
          · exact h
        exact hne (anti a (List.mem_cons_self _ _) b (List.mem_cons_of_mem _ hb)
          (h1.1 b hb) (h2.1 a ha))
      subst hab
      rw [ih l2 (List.Perm.cons_inv hp) h1.2 h2.2
        (fun x hx y hy => anti x (List.mem_cons_of_mem _ hx) y (List.mem_cons_of_mem _ hy))]

theorem fixedBytes_finite (n : Nat) : Finite (FixedBytes n) := by
  have hfin : Finite { l : List Byte // l.length = n } :=
    (List.finite_length_eq Byte n).to_subtype
  exact Finite.of_injective
    (fun x : FixedBytes n => (⟨x.bytes, x.size_eq⟩ : { l : List Byte // l.length = n }))
    (by intro x y h; cases x; cases y; simpa using h)

/-- Whatever the hash function is, two different transactions have the same
outer hash: there are infinitely many transactions and finitely many
hashes. -/
theorem outer_hash_collision (c : Cipher N) :
    ∃ a b : Transaction N, a ≠ b ∧ a.Hash c = b.Hash c := by
  have := fixedBytes_finite 32
  obtain ⟨m, n, hne, he⟩ := Finite.exists_ne_map_eq_of_infinite
    (fun k : ℕ => (⟨⟨FixedBytes.fill 32 0, []⟩, List.replicate k (FixedBytes.fill 32 0), []⟩ :
      Transaction N).Hash c)
  refine ⟨_, _, fun h => hne ?_, he⟩
  have := congrArg (fun t : Transaction N => t.In.length) h
  simpa using this

theorem bytesCompare_self (a : List Byte) : bytesCompare a a = 0 := by
  induction a with
  | nil => rfl
  | cons x xs ih => simp [bytesCompare, ih]

/-- Two transactions with the same outer hash and the fee 0 are returned by
`SortTransactions` in the order in which they are passed. -/
theorem sortTransactions_tie (c : Cipher N) (a b : Transaction N) (h : a.Hash c = b.Hash c) :
    SortTransactions c [a, b] (fun _ => .ok ⟨0, by decide⟩) = Result.ok [a, b] := by
  have hf : ∀ size : Nat, feePriority ⟨0, by decide⟩ size = ⟨0, by decide⟩ := by
    intro size
    simp [feePriority]
  unfold SortTransactions
  rw [newSortableTransactions_eq]
  show Result.ok (ofEntries _).Sort.Txns = _
  rw [sort_ofEntries_sorted]
  · rfl
  · simp only [entriesOf, List.filterMap_cons, List.filterMap_nil, hf, h]
    simp [entryLess, bytesCompare_self]

/-- Whatever the hash function is, the result of `SortTransactions` depends
on the order of some input list. -/
theorem sortTransactions_depends_on_order (c : Cipher N) :
    ∃ (s p : Transactions N) (feeCalc : FeeCalculator N), p.Perm s ∧
      SortTransactions c p feeCalc ≠ SortTransactions c s feeCalc := by
  obtain ⟨a, b, hne, he⟩ := outer_hash_collision c
  refine ⟨[a, b], [b, a], fun _ => .ok ⟨0, by decide⟩, List.Perm.swap a b [], ?_⟩
  rw [sortTransactions_tie c a b he, sortTransactions_tie c b a he.symm]
  intro h
  simp only [Result.ok.injEq, List.cons.injEq, and_true] at h
  exact hne h.1.symm

set_option maxRecDepth 100000 in
/-- Counterexample to C15 as stated: two different transactions with the same
fee priority and the same outer hash come out in the order in which they went
in. -/
theorem selector_order_counterexample :
    tiedTxns.reverse.Perm tiedTxns ∧
      SortTransactions sampleCipher tiedTxns.reverse sampleFee ≠
        SortTransactions sampleCipher tiedTxns sampleFee :=
  ⟨List.reverse_perm _, by decide⟩

/-- C15 (amended): for a transaction list `s` in which no two different
transactions have the same outer hash, every permutation `p` of `s` and every
fee calculator `f`, `SortTransactions(p, f)` and `SortTransactions(s, f)` are
the same sequence. -/
theorem selector_order_independent (c : Cipher N) (s p : Transactions N)
    (feeCalc : FeeCalculator N) (hp : p.Perm s)
    (hinj : ∀ a ∈ s, ∀ b ∈ s, a.Hash c = b.Hash c → a = b) :
    SortTransactions c p feeCalc = SortTransactions c s feeCalc ∧
      ∃ r, SortTransactions c s feeCalc = Result.ok r := by
  obtain ⟨r1, hr1, hp1, hs1⟩ := sortTransactions_eq c s feeCalc
  obtain ⟨r2, hr2, hp2, hs2⟩ := sortTransactions_eq c p feeCalc
  have hperm : r2.Perm r1 :=
    (hp2.trans (List.Perm.filterMap _ hp)).trans hp1.symm
  have heq : r2 = r1 := by
    apply eq_of_perm_of_pairwise _ r2 r1 hperm hs2 hs1
    intro a ha b hb hab hba
    have ha' := mem_entriesOf c feeCalc s a (hp1.subset (hperm.subset ha))
    have hb' := mem_entriesOf c feeCalc s b (hp1.subset (hperm.subset hb))
    have hhash : a.2.2 = b.2.2 := by
      by_contra hne
      exact hba (entryLess_total a b hab hne)
    have ht : a.1 = b.1 := hinj a.1 ha'.1 b.1 hb'.1 (by rw [← ha'.2.2, ← hb'.2.2, hhash])
    have hfee : a.2.1 = b.2.1 := by
      have := ha'.2.1
      rw [ht, hb'.2.1] at this
      exact (Option.some.inj this).symm
    exact Prod.ext ht (Prod.ext hfee hhash)
  exact ⟨by rw [hr1, hr2, heq], _, hr1⟩

set_option maxRecDepth 100000 in
/-- Witness of C15 (amended): the four sample transactions, with pairwise
distinct outer hashes, and their reversal. -/
theorem selector_order_independent_witness :
    SortTransactions sampleCipher sampleTxns.reverse sampleFee =
      SortTransactions sampleCipher sampleTxns sampleFee :=
  (selector_order_independent sampleCipher sampleTxns sampleTxns.reverse sampleFee
    (List.reverse_perm _) (by decide)).1

/-! ### Sorting twice -/

/-- The procedure that stands for `sort.Sort` meets the contract. -/
theorem sort_meetsSortContract :
    MeetsSortContract (SortableTransactions.Sort : SortableTransactions N → _) :=
  fun l => sort_ofEntries_spec l

/-- The procedure `swapThenSort` meets the contract as well. -/
theorem swapThenSort_meetsSortContract :
    MeetsSortContract (swapThenSort : SortableTransactions N → _) := by
  intro l
  have hlen : (ofEntries l).Len = l.length := by simp [SortableTransactions.Len, ofEntries]
  unfold swapThenSort
  rw [hlen]
  match l with
  | [] => exact sort_ofEntries_spec []
  | [x] => exact sort_ofEntries_spec [x]
  | x :: y :: rest =>
    have hsw := ofEntries_swap_mid [] rest x y
    simp only [List.nil_append, List.length_nil, Nat.zero_add] at hsw
    rw [if_neg (by simp), hsw]
    obtain ⟨r, hr, hp, hs⟩ := sort_ofEntries_spec (y :: x :: rest)
    exact ⟨r, hr, hp.trans (List.Perm.swap x y rest), hs⟩

/-- The result of `SortTransactionsBy`, through the entries that are
sorted. -/
theorem sortTransactionsBy_eq (c : Cipher N)
    (run : SortableTransactions N → SortableTransactions N) (hrun : MeetsSortContract run)
    (txns : Transactions N) (feeCalc : FeeCalculator N) :
    ∃ r : List (Entry N), SortTransactionsBy c run txns feeCalc = Result.ok (r.map (·.1)) ∧
      r.Perm (entriesOf c feeCalc txns) ∧ r.Pairwise fun a b => ¬ entryLess b a = true := by
  obtain ⟨r, hr, hp, hs⟩ := hrun (entriesOf c feeCalc txns)
  refine ⟨r, ?_, hp, hs⟩
  unfold SortTransactionsBy
  rw [newSortableTransactions_eq]
  show Result.ok (run (ofEntries (entriesOf c feeCalc txns))).Txns = _
  rw [hr]
  rfl

/-- Two entries written for a list in which no two different transactions
have the same outer hash are equal when neither is `Less` than the other. -/
theorem entries_eq_of_not_less (c : Cipher N) (feeCalc : FeeCalculator N)
    (s : Transactions N) (hinj : ∀ a ∈ s, ∀ b ∈ s, a.Hash c = b.Hash c → a = b)
    (x y : Entry N) (hx : x ∈ entriesOf c feeCalc s) (hy : y ∈ entriesOf c feeCalc s)
    (hxy : ¬ entryLess y x = true) (hyx : ¬ entryLess x y = true) : x = y := by
  have hx' := mem_entriesOf c feeCalc s x hx
  have hy' := mem_entriesOf c feeCalc s y hy
  have hhash : x.2.2 = y.2.2 := by
    by_contra hne
    exact hyx (entryLess_total x y hxy hne)
  have ht : x.1 = y.1 := hinj x.1 hx'.1 y.1 hy'.1 (by rw [← hx'.2.2, ← hy'.2.2, hhash])
  have hfee : x.2.1 = y.2.1 := by
    have := hx'.2.1
    rw [ht, hy'.2.1] at this
    exact (Option.some.inj this).symm
  exact Prod.ext ht (Prod.ext hfee hhash)

set_option maxRecDepth 100000 in
/-- Counterexample to C16 as stated: `swapThenSort` meets the contract of
`sort.Sort`, and with it in the place of `sort.Sort` the two tied sample
transactions come out of a second sorting in another order than out of the
first. -/
theorem resort_counterexample :
    MeetsSortContract (swapThenSort : SortableTransactions 1 → _) ∧
      SortTransactionsBy sampleCipher swapThenSort tiedTxns sampleFee =
        Result.ok tiedTxns.reverse ∧
      SortTransactionsBy sampleCipher swapThenSort tiedTxns.reverse sampleFee =
        Result.ok tiedTxns ∧
      (SortTransactionsBy sampleCipher swapThenSort tiedTxns sampleFee).bind
          (fun r => SortTransactionsBy sampleCipher swapThenSort r sampleFee) ≠
        SortTransactionsBy sampleCipher swapThenSort tiedTxns sampleFee :=
  ⟨swapThenSort_meetsSortContract, by decide, by decide, by decide⟩

/-- C16 (amended): for a transaction list `s` in which no two different
transactions have the same outer hash and every fee calculator `f`, sorting
the result of `SortTransactions(s, f)` again returns the same list, nothing
reordered and nothing dropped; this holds with every procedure that meets the
contract of `sort.Sort` in its place, the one of the model included. -/
theorem sortTransactions_resort (c : Cipher N)
    (run : SortableTransactions N → SortableTransactions N) (hrun : MeetsSortContract run)
    (s : Transactions N) (feeCalc : FeeCalculator N)
    (hinj : ∀ a ∈ s, ∀ b ∈ s, a.Hash c = b.Hash c → a = b) :
    (∃ r, SortTransactionsBy c run s feeCalc = Result.ok r ∧
        SortTransactionsBy c run r feeCalc = Result.ok r) ∧
      ∃ r, SortTransactions c s feeCalc = Result.ok r ∧
        SortTransactions c r feeCalc = Result.ok r := by
  have key : ∀ run' : SortableTransactions N → SortableTransactions N,
      MeetsSortContract run' →
      ∃ r, SortTransactionsBy c run' s feeCalc = Result.ok r ∧
        SortTransactionsBy c run' r feeCalc = Result.ok r := by
    intro run' hrun'
    obtain ⟨r1, hr1, hp1, hs1⟩ := sortTransactionsBy_eq c run' hrun' s feeCalc
    have hmem : ∀ e ∈ r1, priorityOf feeCalc e.1 = some e.2.1 ∧ e.2.2 = e.1.Hash c :=
      fun e he => (mem_entriesOf c feeCalc s e (hp1.subset he)).2
    have hent : entriesOf c feeCalc (r1.map (·.1)) = r1 :=
      entriesOf_map_fst_self c feeCalc r1 hmem
    obtain ⟨r2, hr2, hp2, hs2⟩ := sortTransactionsBy_eq c run' hrun' (r1.map (·.1)) feeCalc
    rw [hent] at hp2
    have heq : r2 = r1 := by
      apply eq_of_perm_of_pairwise _ r2 r1 hp2 hs2 hs1
      intro a ha b hb hab hba
      exact entries_eq_of_not_less c feeCalc s hinj a b (hp1.subset (hp2.subset ha))
        (hp1.subset (hp2.subset hb)) hab hba
    refine ⟨r1.map (·.1), hr1, ?_⟩
    rw [hr2, heq]
  exact ⟨key run hrun, key SortableTransactions.Sort sort_meetsSortContract⟩

set_option maxRecDepth 100000 in
/-- Witness of C16 (amended): the four sample transactions, with pairwise
distinct outer hashes, and the sorting procedure of the model. -/
theorem sortTransactions_resort_witness :
    ∃ r, SortTransactions sampleCipher sampleTxns sampleFee = Result.ok r ∧
      SortTransactions sampleCipher r sampleFee = Result.ok r :=
  (sortTransactions_resort sampleCipher SortableTransactions.Sort sort_meetsSortContract
    sampleTxns sampleFee (by decide)).2

/-! ### The arithmetic of the fee priority -/

set_option maxRecDepth 100000 in
/-- C17, the code at a failing input: as long as `fee * 1024` stays below
`2 ^ 64` the stored priority is the exact quotient, but for the fee `2 ^ 54`
the product wraps around to 0. Of two sample transactions of 158 bytes, the
one with fee 1 gets the priority 6 and the one with fee `2 ^ 54` the priority
0, where the exact quotient is 116751544770313617, so the transaction with
the smaller fee is sorted first. -/
theorem feePriority_overflow :
    (∀ (fee : Uint64) (size : Nat), fee.val * 1024 < 2 ^ 64 →
        (feePriority fee size).val = fee.val * 1024 / size) ∧
      (sampleTxns.take 2).map (fun t => t.Size) = [158, 158] ∧
      (sampleTxns.take 2).map (fun t => (bigFeeCalc t).toOption.map Fin.val) =
        [some 1, some (2 ^ 54)] ∧
      (∃ s, newSortableTransactions sampleCipher (sampleTxns.take 2) bigFeeCalc = Result.ok s ∧
        s.Fees.map Fin.val = [6, 0]) ∧
      bigFee.val * 1024 / 158 = 116751544770313617 ∧
      SortTransactions sampleCipher (sampleTxns.take 2).reverse bigFeeCalc =
        Result.ok (sampleTxns.take 2) := by
  refine ⟨fun fee size h => ?_, by decide, by decide, ?_, by decide, by decide⟩
  · simp only [feePriority, Nat.mod_eq_of_lt h]
  · exact ⟨_, newSortableTransactions_eq _ _ _, by decide⟩

end Coin
